import Mathlib

/-!
Verification of the fastuidraw adaptive-tessellation and sweep core.

Shallow embedding, over exact rationals, of:

* `src/src/fastuidraw/tessellated_path.cpp` — the `TessellatedPath`
  construction machinery: segment data, arc splitting
  (`SegmentStorage::add_arc_segment`, `add_tessellated_arc_segment`),
  per-edge bookkeeping (`TessellatedPathPrivate::add_edge`,
  `end_contour`, `finalize`), the `Refiner`, and the lazy
  `stroked()`/`filled()` accessors.
* `src/src/3rd_party/glu-tess/sweep.cpp` — the coincident-vertex merge
  loop of `glu_fastuidraw_gl_computeInterior`, `VertexWeights`, and the
  intersection-vertex clamping of `CheckForIntersect`.

Floating-point values are modelled as `ℚ`; the transcendental helpers
(`t_cos`, `t_sin`, `magnitude`) are uninterpreted function parameters, so
every theorem below is proved for all possible values of those functions.
-/

namespace FUID

/-- 2-dimensional vector (`fastuidraw::vec2`), modelled componentwise. -/
abbrev Vec2 := ℚ × ℚ

/-- Componentwise vector addition. -/
def vadd (a b : Vec2) : Vec2 := (a.1 + b.1, a.2 + b.2)

/-- Componentwise vector subtraction. -/
def vsub (a b : Vec2) : Vec2 := (a.1 - b.1, a.2 - b.2)

/-- Scalar multiple of a vector. -/
def vscale (c : ℚ) (a : Vec2) : Vec2 := (c * a.1, c * a.2)

/-- The C++ `TessellatedPath::segment_type_t`: a segment is a line or an arc. -/
inductive SegType where
  | line_segment : SegType
  | arc_segment : SegType
deriving DecidableEq, Repr

/-- The C++ `fastuidraw::TessellatedPath::segment`.  Fields keep the `m_` names of
the C++ struct; fields the C++ code leaves uninitialized until a later
pass default to `0` / `false` here. -/
structure Segment where
  m_start_pt : Vec2 := (0, 0)
  m_end_pt : Vec2 := (0, 0)
  m_center : Vec2 := (0, 0)
  m_radius : ℚ := 0
  m_arc_angle_begin : ℚ := 0
  m_arc_angle_end : ℚ := 0
  m_type : SegType := SegType.line_segment
  m_tangent_with_predecessor : Bool := false
  m_length : ℚ := 0
  m_distance_from_edge_start : ℚ := 0
  m_distance_from_contour_start : ℚ := 0
  m_edge_length : ℚ := 0
  m_open_contour_length : ℚ := 0
  m_closed_contour_length : ℚ := 0
  m_enter_segment_unit_vector : Vec2 := (0, 0)
  m_leaving_segment_unit_vector : Vec2 := (0, 0)
deriving DecidableEq, Repr

/-- The double constant `M_PI`, as an exact rational stand-in. -/
def M_PI : ℚ := 3.14159265358979323846

/-- The C++ `max_arc = M_PI / 4.0` from `add_tessellated_arc_segment`. -/
def max_arc : ℚ := M_PI / 4

/-- The loop body of `add_tessellated_arc_segment`: emit `remaining`
segments, threading the previous end point (`d->back().m_end_pt` in the
C++) and the running angle `theta`.  The first emitted segment uses the
incoming `prevPt`/`twp` (the `i == 0` branch of the source); the last one
ends exactly at `endPt` (the `i + 1 == cnt` branch). -/
def arcSegRun (fcos fsin : ℚ → ℚ) (endPt center : Vec2) (radius da : ℚ) :
    (remaining : ℕ) → (prevPt : Vec2) → (theta : ℚ) → (twp : Bool) → List Segment
  | 0, _, _, _ => []
  | n + 1, prevPt, theta, twp =>
      let ePt : Vec2 :=
        if n = 0 then endPt
        else vadd center (vscale radius (fcos (theta + da), fsin (theta + da)))
      { m_start_pt := prevPt
        m_end_pt := ePt
        m_center := center
        m_radius := radius
        m_arc_angle_begin := theta
        m_arc_angle_end := theta + da
        m_type := SegType.arc_segment
        m_tangent_with_predecessor := twp } ::
        arcSegRun fcos fsin endPt center radius da n ePt (theta + da) true

/-- The C++ `add_tessellated_arc_segment(start, end, center, radius, arc_angle,
tangent_with_predecessor, d)`: split the arc into
`cnt = 1 + (unsigned)(|Δangle| / max_arc)` equal pieces of signed angular
step `da = Δangle / cnt` and append them.  Returns the list of segments
pushed onto `d`. -/
def add_tessellated_arc_segment (fcos fsin : ℚ → ℚ)
    (start endp center : Vec2) (radius : ℚ)
    (angleBegin angleEnd : ℚ) (tangent_with_predecessor : Bool) : List Segment :=
  let a : ℚ := |angleEnd - angleBegin|
  let cnt : ℕ := 1 + (a / max_arc).floor.toNat
  let da : ℚ := (angleEnd - angleBegin) / (cnt : ℚ)
  arcSegRun fcos fsin endp center radius da cnt start angleBegin tangent_with_predecessor

/-- The `crit_angles` table of `SegmentStorage::add_arc_segment`. -/
def crit_angles : ℕ → ℚ
  | 0 => -(M_PI / 2)
  | 1 => 0
  | 2 => M_PI / 2
  | 3 => M_PI
  | 4 => 3 * (M_PI / 2)
  | 5 => 2 * M_PI
  | _ => 5 * (M_PI / 2)

/-- The `crit_pts` table of `SegmentStorage::add_arc_segment`. -/
def crit_pts : ℕ → Vec2
  | 0 => (0, -1)
  | 1 => (1, 0)
  | 2 => (0, 1)
  | 3 => (-1, 0)
  | 4 => (0, -1)
  | 5 => (1, 0)
  | _ => (0, 1)

/-- The splitting loop of `SegmentStorage::add_arc_segment`: walk the
remaining critical-angle indices `ks`, splitting at each critical angle
strictly inside the arc's angle range, then emit the final piece up to
`(endp, angleEnd)`.  `prevAngle`/`prevPt`/`twp` thread exactly the local
variables of the C++ loop. -/
def arcSplitLoop (fcos fsin : ℚ → ℚ) (endp center : Vec2) (radius : ℚ)
    (angleBegin angleEnd : ℚ) :
    (ks : List ℕ) → (prevAngle : ℚ) → (prevPt : Vec2) → (twp : Bool) → List Segment
  | [], prevAngle, prevPt, twp =>
      add_tessellated_arc_segment fcos fsin prevPt endp center radius
        prevAngle angleEnd twp
  | K :: ks, prevAngle, prevPt, twp =>
      let should_split : Bool :=
        if angleBegin < angleEnd then
          decide (angleBegin < crit_angles K ∧ crit_angles K < angleEnd)
        else
          decide (angleEnd < crit_angles K ∧ crit_angles K < angleBegin)
      if should_split then
        add_tessellated_arc_segment fcos fsin prevPt
          (vadd center (vscale radius (crit_pts K))) center radius
          prevAngle (crit_angles K) twp ++
        arcSplitLoop fcos fsin endp center radius angleBegin angleEnd
          ks (crit_angles K) (vadd center (vscale radius (crit_pts K))) false
      else
        arcSplitLoop fcos fsin endp center radius angleBegin angleEnd
          ks prevAngle prevPt twp

/-- The C++ `fastuidraw::TessellatedPath::SegmentStorage::add_arc_segment`:
the critical indices are visited ascending when
`arc_angle.m_begin < arc_angle.m_end` and descending otherwise, then the
final piece is emitted.  Returns the list of segments appended to the
storage. -/
def add_arc_segment (fcos fsin : ℚ → ℚ) (start endp center : Vec2)
    (radius : ℚ) (angleBegin angleEnd : ℚ) : List Segment :=
  let ks : List ℕ :=
    if angleBegin < angleEnd then [0, 1, 2, 3, 4, 5, 6] else [6, 5, 4, 3, 2, 1, 0]
  arcSplitLoop fcos fsin endp center radius angleBegin angleEnd ks angleBegin start false

/-- Positional contiguity of two adjacent segments: the first ends where
the second starts. -/
def Contig (a b : Segment) : Prop := a.m_end_pt = b.m_start_pt

/-- Every segment of `l` starts at `p`, if `l` has a first segment. -/
def HeadStart (l : List Segment) (p : Vec2) : Prop :=
  ∀ s ∈ l.head?, s.m_start_pt = p

/-- The last segment of `l` (if any) ends at `p`. -/
def LastEnd (l : List Segment) (p : Vec2) : Prop :=
  ∀ s ∈ l.getLast?, s.m_end_pt = p

theorem arcSegRun_length (fcos fsin : ℚ → ℚ) (endPt center : Vec2)
    (radius da : ℚ) (n : ℕ) (prevPt : Vec2) (theta : ℚ) (twp : Bool) :
    (arcSegRun fcos fsin endPt center radius da n prevPt theta twp).length = n := by
  induction n generalizing prevPt theta twp with
  | zero => rfl
  | succ m ih => simp [arcSegRun, ih]

theorem arcSegRun_headStart (fcos fsin : ℚ → ℚ) (endPt center : Vec2)
    (radius da : ℚ) (n : ℕ) (prevPt : Vec2) (theta : ℚ) (twp : Bool) :
    HeadStart (arcSegRun fcos fsin endPt center radius da n prevPt theta twp) prevPt := by
  cases n with
  | zero => intro s hs; simp [arcSegRun] at hs
  | succ m =>
    intro s hs
    simp only [arcSegRun, List.head?_cons, Option.mem_def, Option.some.injEq] at hs
    subst hs; rfl

theorem arcSegRun_lastEnd (fcos fsin : ℚ → ℚ) (endPt center : Vec2)
    (radius da : ℚ) (n : ℕ) (prevPt : Vec2) (theta : ℚ) (twp : Bool) :
    LastEnd (arcSegRun fcos fsin endPt center radius da n prevPt theta twp) endPt := by
  induction n generalizing prevPt theta twp with
  | zero => intro s hs; simp [arcSegRun] at hs
  | succ m ih =>
    intro s hs
    cases m with
    | zero =>
      simp only [arcSegRun, List.getLast?_singleton, Option.mem_def,
        Option.some.injEq] at hs
      subst hs; rfl
    | succ k =>
      rw [show arcSegRun fcos fsin endPt center radius da (k + 1 + 1) prevPt theta twp
            = _ :: arcSegRun fcos fsin endPt center radius da (k + 1) _ (theta + da) true
          from rfl] at hs
      rw [show arcSegRun fcos fsin endPt center radius da (k + 1) _ (theta + da) true
            = _ :: arcSegRun fcos fsin endPt center radius da k _ (theta + da + da) true
          from rfl] at hs
      rw [List.getLast?_cons_cons] at hs
      rw [← show arcSegRun fcos fsin endPt center radius da (k + 1) _ (theta + da) true
            = _ :: arcSegRun fcos fsin endPt center radius da k _ (theta + da + da) true
          from rfl] at hs
      exact ih _ _ _ s hs

theorem arcSegRun_chain (fcos fsin : ℚ → ℚ) (endPt center : Vec2)
    (radius da : ℚ) (n : ℕ) (prevPt : Vec2) (theta : ℚ) (twp : Bool) :
    List.Chain' Contig (arcSegRun fcos fsin endPt center radius da n prevPt theta twp) := by
  induction n generalizing prevPt theta twp with
  | zero => simp [arcSegRun]
  | succ m ih =>
    rw [arcSegRun, List.chain'_cons']
    refine ⟨fun y hy => ?_, ih _ _ _⟩
    have := arcSegRun_headStart fcos fsin endPt center radius da m _ (theta + da) true y hy
    simp [Contig, this]

theorem add_tessellated_arc_segment_length (fcos fsin : ℚ → ℚ)
    (start endp center : Vec2) (radius angleBegin angleEnd : ℚ) (twp : Bool) :
    (add_tessellated_arc_segment fcos fsin start endp center radius
        angleBegin angleEnd twp).length
      = 1 + (|angleEnd - angleBegin| / max_arc).floor.toNat := by
  unfold add_tessellated_arc_segment
  rw [arcSegRun_length]

theorem add_tessellated_arc_segment_ne_nil (fcos fsin : ℚ → ℚ)
    (start endp center : Vec2) (radius angleBegin angleEnd : ℚ) (twp : Bool) :
    add_tessellated_arc_segment fcos fsin start endp center radius
      angleBegin angleEnd twp ≠ [] := by
  intro h
  have := add_tessellated_arc_segment_length fcos fsin start endp center radius
    angleBegin angleEnd twp
  rw [h] at this
  simp at this
  omega

theorem add_tessellated_arc_segment_headStart (fcos fsin : ℚ → ℚ)
    (start endp center : Vec2) (radius angleBegin angleEnd : ℚ) (twp : Bool) :
    HeadStart (add_tessellated_arc_segment fcos fsin start endp center radius
      angleBegin angleEnd twp) start :=
  arcSegRun_headStart fcos fsin endp center radius _ _ start angleBegin twp

theorem add_tessellated_arc_segment_lastEnd (fcos fsin : ℚ → ℚ)
    (start endp center : Vec2) (radius angleBegin angleEnd : ℚ) (twp : Bool) :
    LastEnd (add_tessellated_arc_segment fcos fsin start endp center radius
      angleBegin angleEnd twp) endp :=
  arcSegRun_lastEnd fcos fsin endp center radius _ _ start angleBegin twp

theorem add_tessellated_arc_segment_chain (fcos fsin : ℚ → ℚ)
    (start endp center : Vec2) (radius angleBegin angleEnd : ℚ) (twp : Bool) :
    List.Chain' Contig (add_tessellated_arc_segment fcos fsin start endp center radius
      angleBegin angleEnd twp) :=
  arcSegRun_chain fcos fsin endp center radius _ _ start angleBegin twp

theorem arcSplitLoop_props (fcos fsin : ℚ → ℚ) (endp center : Vec2)
    (radius angleBegin angleEnd : ℚ) (ks : List ℕ) (prevAngle : ℚ)
    (prevPt : Vec2) (twp : Bool) :
    List.Chain' Contig (arcSplitLoop fcos fsin endp center radius angleBegin angleEnd
        ks prevAngle prevPt twp)
      ∧ HeadStart (arcSplitLoop fcos fsin endp center radius angleBegin angleEnd
          ks prevAngle prevPt twp) prevPt
      ∧ LastEnd (arcSplitLoop fcos fsin endp center radius angleBegin angleEnd
          ks prevAngle prevPt twp) endp
      ∧ arcSplitLoop fcos fsin endp center radius angleBegin angleEnd
          ks prevAngle prevPt twp ≠ [] := by
  induction ks generalizing prevAngle prevPt twp with
  | nil =>
    exact ⟨add_tessellated_arc_segment_chain _ _ _ _ _ _ _ _ _,
      add_tessellated_arc_segment_headStart _ _ _ _ _ _ _ _ _,
      add_tessellated_arc_segment_lastEnd _ _ _ _ _ _ _ _ _,
      add_tessellated_arc_segment_ne_nil _ _ _ _ _ _ _ _ _⟩
  | cons K ks ih =>
    rw [arcSplitLoop]
    by_cases hs : (if angleBegin < angleEnd then
          decide (angleBegin < crit_angles K ∧ crit_angles K < angleEnd)
        else
          decide (angleEnd < crit_angles K ∧ crit_angles K < angleBegin)) = true
    · rw [if_pos hs]
      obtain ⟨ihc, ihh, ihl, ihn⟩ := ih (crit_angles K)
        (vadd center (vscale radius (crit_pts K))) false
      constructor
      · rw [List.chain'_append]
        refine ⟨add_tessellated_arc_segment_chain _ _ _ _ _ _ _ _ _, ihc, ?_⟩
        intro x hx y hy
        have hxe := add_tessellated_arc_segment_lastEnd fcos fsin prevPt
          (vadd center (vscale radius (crit_pts K))) center radius prevAngle
          (crit_angles K) twp x hx
        have hys := ihh y hy
        rw [Contig, hxe, hys]
      refine ⟨?_, ?_, ?_⟩
      · intro s hs'
        rw [List.head?_append_of_ne_nil _
          (add_tessellated_arc_segment_ne_nil fcos fsin prevPt _ center radius
            prevAngle (crit_angles K) twp)] at hs'
        exact add_tessellated_arc_segment_headStart _ _ _ _ _ _ _ _ _ s hs'
      · intro s hs'
        rw [List.getLast?_append_of_ne_nil _ ihn] at hs'
        exact ihl s hs'
      · simp [ihn]
    · rw [if_neg hs]
      exact ih prevAngle prevPt twp

theorem max_arc_pos : 0 < max_arc := by norm_num [max_arc, M_PI]

/-- Every segment emitted by `arcSegRun` spans exactly the signed angle
`da`. -/
theorem arcSegRun_angle_span (fcos fsin : ℚ → ℚ) (endPt center : Vec2)
    (radius da : ℚ) (n : ℕ) (prevPt : Vec2) (theta : ℚ) (twp : Bool) :
    ∀ S ∈ arcSegRun fcos fsin endPt center radius da n prevPt theta twp,
      S.m_arc_angle_end - S.m_arc_angle_begin = da := by
  induction n generalizing prevPt theta twp with
  | zero => intro S hS; simp [arcSegRun] at hS
  | succ m ih =>
    intro S hS
    rw [arcSegRun, List.mem_cons] at hS
    rcases hS with h | h
    · subst h; simp
    · exact ih _ _ _ S h

/-- The per-piece step `da = Δ / (1 + ⌊|Δ| / max_arc⌋)` of
`add_tessellated_arc_segment` never exceeds `max_arc` in magnitude. -/
theorem abs_da_le_max_arc (angleBegin angleEnd : ℚ) :
    |(angleEnd - angleBegin) /
        ((1 + (|angleEnd - angleBegin| / max_arc).floor.toNat : ℕ) : ℚ)|
      ≤ max_arc := by
  set a : ℚ := |angleEnd - angleBegin| with ha
  have ha0 : 0 ≤ a := abs_nonneg _
  have hm := max_arc_pos
  have hff : (a / max_arc).floor = ⌊a / max_arc⌋ := rfl
  rw [hff]
  have hfl : (0 : ℤ) ≤ ⌊a / max_arc⌋ :=
    Int.floor_nonneg.mpr (div_nonneg ha0 hm.le)
  have htoNat : ((⌊a / max_arc⌋.toNat : ℤ) : ℚ) = ((⌊a / max_arc⌋ : ℤ) : ℚ) := by
    exact_mod_cast congrArg (fun z : ℤ => (z : ℚ)) (Int.toNat_of_nonneg hfl)
  have hcnt : ((1 + ⌊a / max_arc⌋.toNat : ℕ) : ℚ)
      = 1 + ((⌊a / max_arc⌋ : ℤ) : ℚ) := by
    push_cast
    rw [← htoNat]
    push_cast
    ring
  have hcnt_pos : (0 : ℚ) < ((1 + ⌊a / max_arc⌋.toNat : ℕ) : ℚ) := by
    positivity
  rw [abs_div]
  rw [abs_of_pos hcnt_pos]
  rw [div_le_iff₀ hcnt_pos]
  have hge : a / max_arc ≤ 1 + ((⌊a / max_arc⌋ : ℤ) : ℚ) := by
    have := Int.sub_one_lt_floor (a / max_arc)
    linarith
  calc a = max_arc * (a / max_arc) := by field_simp
    _ ≤ max_arc * (1 + ((⌊a / max_arc⌋ : ℤ) : ℚ)) := by
        exact mul_le_mul_of_nonneg_left hge hm.le
    _ = max_arc * ((1 + ⌊a / max_arc⌋.toNat : ℕ) : ℚ) := by rw [hcnt]

/-- Every segment emitted by one `add_tessellated_arc_segment` call spans
at most `max_arc` radians in magnitude. -/
theorem add_tessellated_arc_segment_span (fcos fsin : ℚ → ℚ)
    (start endp center : Vec2) (radius angleBegin angleEnd : ℚ) (twp : Bool) :
    ∀ S ∈ add_tessellated_arc_segment fcos fsin start endp center radius
        angleBegin angleEnd twp,
      |S.m_arc_angle_end - S.m_arc_angle_begin| ≤ max_arc := by
  intro S hS
  have h := arcSegRun_angle_span fcos fsin endp center radius _ _ start angleBegin twp S hS
  rw [h]
  exact abs_da_le_max_arc angleBegin angleEnd

/-- Every segment emitted by the splitting loop spans at most `max_arc`. -/
theorem arcSplitLoop_span (fcos fsin : ℚ → ℚ) (endp center : Vec2)
    (radius angleBegin angleEnd : ℚ) (ks : List ℕ) (prevAngle : ℚ)
    (prevPt : Vec2) (twp : Bool) :
    ∀ S ∈ arcSplitLoop fcos fsin endp center radius angleBegin angleEnd
        ks prevAngle prevPt twp,
      |S.m_arc_angle_end - S.m_arc_angle_begin| ≤ max_arc := by
  induction ks generalizing prevAngle prevPt twp with
  | nil =>
    intro S hS
    exact add_tessellated_arc_segment_span _ _ _ _ _ _ _ _ _ S hS
  | cons K ks ih =>
    intro S hS
    rw [arcSplitLoop] at hS
    by_cases hc : (if angleBegin < angleEnd then
          decide (angleBegin < crit_angles K ∧ crit_angles K < angleEnd)
        else
          decide (angleEnd < crit_angles K ∧ crit_angles K < angleBegin)) = true
    · rw [if_pos hc, List.mem_append] at hS
      rcases hS with h | h
      · exact add_tessellated_arc_segment_span _ _ _ _ _ _ _ _ _ S h
      · exact ih _ _ _ S h
    · rw [if_neg hc] at hS
      exact ih _ _ _ S hS

/-- Either the splitting loop split at some critical angle (emitting at
least two segments), or it reduces to a single full-range
`add_tessellated_arc_segment` call. -/
theorem arcSplitLoop_two_or_full (fcos fsin : ℚ → ℚ) (endp center : Vec2)
    (radius angleBegin angleEnd : ℚ) (ks : List ℕ) (prevAngle : ℚ)
    (prevPt : Vec2) (twp : Bool) :
    2 ≤ (arcSplitLoop fcos fsin endp center radius angleBegin angleEnd
          ks prevAngle prevPt twp).length
      ∨ arcSplitLoop fcos fsin endp center radius angleBegin angleEnd
          ks prevAngle prevPt twp
        = add_tessellated_arc_segment fcos fsin prevPt endp center radius
            prevAngle angleEnd twp := by
  induction ks generalizing prevAngle prevPt twp with
  | nil => exact Or.inr rfl
  | cons K ks ih =>
    rw [arcSplitLoop]
    by_cases hc : (if angleBegin < angleEnd then
          decide (angleBegin < crit_angles K ∧ crit_angles K < angleEnd)
        else
          decide (angleEnd < crit_angles K ∧ crit_angles K < angleBegin)) = true
    · rw [if_pos hc]
      left
      rw [List.length_append]
      have h1 : 1 ≤ (add_tessellated_arc_segment fcos fsin prevPt
          (vadd center (vscale radius (crit_pts K))) center radius
          prevAngle (crit_angles K) twp).length := by
        rcases List.length_pos.mpr
          (add_tessellated_arc_segment_ne_nil fcos fsin prevPt
            (vadd center (vscale radius (crit_pts K))) center radius
            prevAngle (crit_angles K) twp) with h
        omega
      have h2 : 1 ≤ (arcSplitLoop fcos fsin endp center radius angleBegin angleEnd
          ks (crit_angles K) (vadd center (vscale radius (crit_pts K))) false).length := by
        rcases List.length_pos.mpr
          (arcSplitLoop_props fcos fsin endp center radius angleBegin angleEnd
            ks (crit_angles K) (vadd center (vscale radius (crit_pts K))) false).2.2.2 with h
        omega
      omega
    · rw [if_neg hc]
      exact ih prevAngle prevPt twp

/-- One `add_arc_segment` call emits a contiguous chain that starts at
`start` and ends at `endp` and is never empty. -/
theorem add_arc_segment_props (fcos fsin : ℚ → ℚ)
    (start endp center : Vec2) (radius angleBegin angleEnd : ℚ) :
    List.Chain' Contig
        (add_arc_segment fcos fsin start endp center radius angleBegin angleEnd)
      ∧ HeadStart
          (add_arc_segment fcos fsin start endp center radius angleBegin angleEnd)
          start
      ∧ LastEnd
          (add_arc_segment fcos fsin start endp center radius angleBegin angleEnd)
          endp
      ∧ add_arc_segment fcos fsin start endp center radius angleBegin angleEnd
          ≠ [] := by
  unfold add_arc_segment
  by_cases h : angleBegin < angleEnd
  · rw [if_pos h]
    exact arcSplitLoop_props fcos fsin endp center radius angleBegin angleEnd
      _ angleBegin start false
  · rw [if_neg h]
    exact arcSplitLoop_props fcos fsin endp center radius angleBegin angleEnd
      _ angleBegin start false

/-- The C++ `fastuidraw::TessellatedPath::SegmentStorage::add_line_segment`:
push one line segment from `start` to `end` with zeroed arc data. -/
def add_line_segment (start endp : Vec2) : List Segment :=
  [{ m_start_pt := start
     m_end_pt := endp
     m_radius := 0
     m_center := (0, 0)
     m_arc_angle_begin := 0
     m_arc_angle_end := 0
     m_type := SegType.line_segment
     m_tangent_with_predecessor := false }]

/-- One call an interpolator makes into `SegmentStorage` while
tessellating a single edge: a line segment or an arc ending at a given
point. -/
inductive StorageOp where
  | line (endp : Vec2) : StorageOp
  | arc (endp center : Vec2) (radius angleBegin angleEnd : ℚ) : StorageOp

/-- The end point a storage call hands to the storage. -/
def StorageOp.endPt : StorageOp → Vec2
  | .line e => e
  | .arc e _ _ _ _ => e

/-- Modelled from the spec: the tessellation workers behind
`interpolator_base::produce_tessellation` /
`tessellation_state::resume_tessellation` (in `Path.cpp`, not among the
sources at hand) fill one edge's scratch buffer through a sequence of
`SegmentStorage::add_line_segment` / `add_arc_segment` calls, each call
starting at the previous call's end point — the spec's "consecutive
segments within an edge are positionally contiguous" and its chaining of
start points between interpolators. -/
def edgeWorkRoom (fcos fsin : ℚ → ℚ) (current : Vec2) :
    List StorageOp → List Segment
  | [] => []
  | StorageOp.line e :: ops =>
      add_line_segment current e ++ edgeWorkRoom fcos fsin e ops
  | StorageOp.arc e c r a b :: ops =>
      add_arc_segment fcos fsin current e c r a b ++ edgeWorkRoom fcos fsin e ops

theorem add_line_segment_props (start endp : Vec2) :
    List.Chain' Contig (add_line_segment start endp)
      ∧ HeadStart (add_line_segment start endp) start
      ∧ LastEnd (add_line_segment start endp) endp
      ∧ add_line_segment start endp ≠ [] := by
  refine ⟨List.chain'_singleton _, ?_, ?_, by simp [add_line_segment]⟩
  · intro s hs
    simp only [add_line_segment, List.head?_cons, Option.mem_def,
      Option.some.injEq] at hs
    subst hs; rfl
  · intro s hs
    simp only [add_line_segment, List.getLast?_singleton, Option.mem_def,
      Option.some.injEq] at hs
    subst hs; rfl

/-- The scratch buffer an interpolator fills for one edge is a
contiguous segment chain starting at the edge's start point. -/
theorem edgeWorkRoom_chain (fcos fsin : ℚ → ℚ) :
    ∀ (ops : List StorageOp) (current : Vec2),
      List.Chain' Contig (edgeWorkRoom fcos fsin current ops)
        ∧ HeadStart (edgeWorkRoom fcos fsin current ops) current := by
  intro ops
  induction ops with
  | nil =>
    intro current
    exact ⟨List.chain'_nil, fun s hs => by simp [edgeWorkRoom] at hs⟩
  | cons op ops ih =>
    intro current
    have step : ∀ (block : List Segment) (e : Vec2),
        List.Chain' Contig block → HeadStart block current → LastEnd block e →
        block ≠ [] →
        List.Chain' Contig (block ++ edgeWorkRoom fcos fsin e ops)
          ∧ HeadStart (block ++ edgeWorkRoom fcos fsin e ops) current := by
      intro block e hc hh hl hne
      constructor
      · rw [List.chain'_append]
        refine ⟨hc, (ih e).1, ?_⟩
        intro x hx y hy
        have hxe := hl x hx
        have hys := (ih e).2 y hy
        rw [Contig, hxe, hys]
      · intro s hs
        rw [List.head?_append_of_ne_nil _ hne] at hs
        exact hh s hs
    cases op with
    | line e =>
      rw [show edgeWorkRoom fcos fsin current (StorageOp.line e :: ops)
          = add_line_segment current e ++ edgeWorkRoom fcos fsin e ops from rfl]
      obtain ⟨h1, h2, h3, h4⟩ := add_line_segment_props current e
      exact step _ e h1 h2 h3 h4
    | arc e c r a b =>
      rw [show edgeWorkRoom fcos fsin current (StorageOp.arc e c r a b :: ops)
          = add_arc_segment fcos fsin current e c r a b
              ++ edgeWorkRoom fcos fsin e ops from rfl]
      obtain ⟨h1, h2, h3, h4⟩ := add_arc_segment_props fcos fsin current e c r a b
      exact step _ e h1 h2 h3 h4

/-- C2.  Every arc segment emitted by
`SegmentStorage::add_arc_segment` spans at most `π/4` radians in
magnitude, and an arc whose total angle exceeds `π/4` is emitted as at
least two segments. -/
theorem arc_segment_split_bounds (fcos fsin : ℚ → ℚ)
    (start endp center : Vec2) (radius angleBegin angleEnd : ℚ) :
    (∀ S ∈ add_arc_segment fcos fsin start endp center radius angleBegin angleEnd,
        |S.m_arc_angle_end - S.m_arc_angle_begin| ≤ max_arc)
      ∧ (max_arc < |angleEnd - angleBegin| →
          2 ≤ (add_arc_segment fcos fsin start endp center radius
                angleBegin angleEnd).length) := by
  constructor
  · intro S hS
    unfold add_arc_segment at hS
    by_cases h : angleBegin < angleEnd
    · rw [if_pos h] at hS
      exact arcSplitLoop_span fcos fsin endp center radius angleBegin angleEnd
        _ angleBegin start false S hS
    · rw [if_neg h] at hS
      exact arcSplitLoop_span fcos fsin endp center radius angleBegin angleEnd
        _ angleBegin start false S hS
  · intro hbig
    have key : ∀ ks : List ℕ,
        2 ≤ (arcSplitLoop fcos fsin endp center radius angleBegin angleEnd
              ks angleBegin start false).length := by
      intro ks
      rcases arcSplitLoop_two_or_full fcos fsin endp center radius angleBegin angleEnd
          ks angleBegin start false with h | h
      · exact h
      · rw [h, add_tessellated_arc_segment_length]
        have h1 : (1 : ℚ) < |angleEnd - angleBegin| / max_arc := by
          rw [lt_div_iff₀ max_arc_pos]
          linarith
        have h2 : (1 : ℤ) ≤ (|angleEnd - angleBegin| / max_arc).floor := by
          exact Rat.le_floor.mpr (by exact_mod_cast h1.le)
        omega
    unfold add_arc_segment
    by_cases h : angleBegin < angleEnd
    · rw [if_pos h]; exact key _
    · rw [if_neg h]; exact key _

/-- Witness for C2: the unit arc from angle `0` to angle `1` radian
(which exceeds `π/4`) is emitted as at least two segments. -/
theorem arc_segment_split_bounds_witness :
    max_arc < |(1 : ℚ) - 0|
      ∧ 2 ≤ (add_arc_segment (fun _ => 0) (fun _ => 0) (1, 0) (0, 0) (0, 0)
              1 0 1).length :=
  have h : max_arc < |(1 : ℚ) - 0| := by norm_num [max_arc, M_PI]
  ⟨h, (arc_segment_split_bounds (fun _ => 0) (fun _ => 0) (1, 0) (0, 0) (0, 0)
      1 0 1).2 h⟩

/-! Part: Edge and contour bookkeeping (`TessellatedPathPrivate`) -/

/-- The C++ `compute_local_segment_values(S)`: fill `m_length` and the unit
tangent vectors of a segment.  The square root inside
`delta.magnitude()` is the uninterpreted parameter `mag`. -/
def compute_local_segment_values (mag : Vec2 → ℚ) (fcos fsin : ℚ → ℚ)
    (S : Segment) : Segment :=
  if S.m_type = SegType.line_segment then
    let delta : Vec2 := vsub S.m_end_pt S.m_start_pt
    let len : ℚ := mag delta
    let dir : Vec2 := if 0 < len then (delta.1 / len, delta.2 / len) else (1, 0)
    { S with
        m_length := len
        m_enter_segment_unit_vector := dir
        m_leaving_segment_unit_vector := dir }
  else
    let sgn : ℚ := if S.m_arc_angle_begin < S.m_arc_angle_end then 1 else -1
    { S with
        m_length := |S.m_arc_angle_end - S.m_arc_angle_begin| * S.m_radius
        m_enter_segment_unit_vector :=
          vscale sgn (-(fsin S.m_arc_angle_begin), fcos S.m_arc_angle_begin)
        m_leaving_segment_unit_vector :=
          vscale sgn (-(fsin S.m_arc_angle_end), fcos S.m_arc_angle_end) }

/-- The running state of `TessellatedPathBuildingState` plus the
`m_loc` cursor: segment-buffer position, number of edges of the current
contour (`m_ende`), and the three running length accumulators. -/
structure BuilderState where
  m_loc : ℕ
  m_ende : ℕ
  m_contour_length : ℚ
  m_open_contour_length : ℚ
  m_closed_contour_length : ℚ
deriving DecidableEq, Repr

/-- The first loop of `TessellatedPathPrivate::add_edge`: compute local
values of each segment, then set `m_distance_from_edge_start`
(`0` for the first segment, previous distance plus previous length
afterwards) and `m_distance_from_contour_start`, accumulating the
contour length.  Returns the processed segments and the new contour
length. -/
def edgeSegLoop (mag : Vec2 → ℚ) (fcos fsin : ℚ → ℚ) :
    List Segment → (de : ℚ) → (cl : ℚ) → List Segment × ℚ
  | [], _, cl => ([], cl)
  | s :: rest, de, cl =>
      let s1 := compute_local_segment_values mag fcos fsin s
      let r := edgeSegLoop mag fcos fsin rest (de + s1.m_length) (cl + s1.m_length)
      ({ s1 with
           m_distance_from_edge_start := de
           m_distance_from_contour_start := cl } :: r.1,
       r.2)

/-- The C++ `TessellatedPathPrivate::add_edge(builder, o, e, work_room, ...)`:
record the edge's segment range at the current cursor, process the
scratch buffer, stamp `m_edge_length` on every segment, and snapshot the
open/closed contour lengths when this is the next-to-last / last edge of
the contour.  Returns the new builder state, the edge range and the
processed segments. -/
def add_edge (mag : Vec2 → ℚ) (fcos fsin : ℚ → ℚ) (b : BuilderState)
    (e : ℕ) (work : List Segment) :
    BuilderState × (ℕ × ℕ) × List Segment :=
  let needed : ℕ := work.length
  let r := edgeSegLoop mag fcos fsin work 0 b.m_contour_length
  let el : ℚ :=
    match r.1.getLast? with
    | some last => last.m_distance_from_edge_start + last.m_length
    | none => 0
  ({ b with
       m_loc := b.m_loc + needed
       m_contour_length := r.2
       m_open_contour_length :=
         if e + 2 = b.m_ende then r.2 else b.m_open_contour_length
       m_closed_contour_length :=
         if e + 1 = b.m_ende then r.2 else b.m_closed_contour_length },
   (b.m_loc, b.m_loc + needed),
   r.1.map (fun s => { s with m_edge_length := el }))

/-- The per-contour edge loop of the `TessellatedPath` constructors:
`add_edge` on each scratch buffer in order, with `e` counting edges. -/
def contourEdgesLoop (mag : Vec2 → ℚ) (fcos fsin : ℚ → ℚ) :
    List (List Segment) → (e : ℕ) → BuilderState →
      BuilderState × List ((ℕ × ℕ) × List Segment)
  | [], _, b => (b, [])
  | w :: rest, e, b =>
      let r := add_edge mag fcos fsin b e w
      let r2 := contourEdgesLoop mag fcos fsin rest (e + 1) r.1
      (r2.1, (r.2.1, r.2.2) :: r2.2)

/-- The C++ `start_contour` + the edge loop + `end_contour` for one contour:
reset the length accumulators, process every edge, then write the final
open/closed contour lengths into every segment of the contour.
Returns the new buffer cursor and the contour's `(range, segments)`
pairs. -/
def build_contour (mag : Vec2 → ℚ) (fcos fsin : ℚ → ℚ) (loc : ℕ)
    (edges : List (List Segment)) : ℕ × List ((ℕ × ℕ) × List Segment) :=
  let r := contourEdgesLoop mag fcos fsin edges 0
    { m_loc := loc, m_ende := edges.length, m_contour_length := 0,
      m_open_contour_length := 0, m_closed_contour_length := 0 }
  (r.1.m_loc,
   r.2.map (fun p =>
     (p.1, p.2.map (fun s =>
       { s with
           m_open_contour_length := r.1.m_open_contour_length
           m_closed_contour_length := r.1.m_closed_contour_length }))))

/-- The contour loop of the `TessellatedPath` constructors: thread the
segment-buffer cursor `loc` through `build_contour` for every contour. -/
def build_path (mag : Vec2 → ℚ) (fcos fsin : ℚ → ℚ) :
    List (List (List Segment)) → (loc : ℕ) →
      List (List ((ℕ × ℕ) × List Segment))
  | [], _ => []
  | c :: rest, loc =>
      let r := build_contour mag fcos fsin loc c
      r.2 :: build_path mag fcos fsin rest r.1

/-- The C++ `TessellationParams`. -/
structure TessellationParams where
  m_max_distance : ℚ
  m_max_recursion : ℕ
  m_allow_arcs : Bool
deriving DecidableEq, Repr

/-- The queryable data of a built `fastuidraw::TessellatedPath`
(`TessellatedPathPrivate`): per-contour edge ranges, the concatenated
segment buffer assembled by `finalize`, and the recorded metadata. -/
structure TessPath where
  m_edges : List (List (ℕ × ℕ))
  m_segment_data : List Segment
  m_max_distance : ℚ
  m_max_recursion : ℕ
  m_has_arcs : Bool
  m_params : TessellationParams
deriving DecidableEq, Repr

/-- The C++ `TessellatedPath::number_contours()`. -/
def number_contours (tp : TessPath) : ℕ := tp.m_edges.length

/-- The C++ `m_max_distance` accumulation: `t_max` folded over the per-edge
maximum distances in construction order, starting from `0`. -/
def pathMaxDist (tmps : List (List ℚ)) : ℚ :=
  tmps.foldl (fun acc c => c.foldl (fun a t => max a t) acc) 0

/-- Assemble a `TessPath` from per-contour scratch buffers: run
`build_path`, then `finalize` concatenates every edge's processed
segments in order. -/
def buildTP (mag : Vec2 → ℚ) (fcos fsin : ℚ → ℚ)
    (contours : List (List (List Segment))) (tmps : List (List ℚ))
    (params : TessellationParams) (maxRec : ℕ) : TessPath :=
  let bp := build_path mag fcos fsin contours 0
  { m_edges := bp.map (fun c => c.map Prod.fst)
    m_segment_data := (bp.map (fun c => c.map Prod.snd)).flatten.flatten
    m_max_distance := pathMaxDist tmps
    m_max_recursion := maxRec
    m_has_arcs := contours.any (fun c => c.any (fun e =>
      e.any (fun s => s.m_type == SegType.arc_segment)))
    m_params := params }

/-! Part: C10: the edge ranges partition the segment buffer -/

/-- The scan `loc ↦ [(loc, loc+n₁), (loc+n₁, loc+n₁+n₂), …]` that
`add_edge`'s `m_loc` cursor produces. -/
def mkRanges (loc : ℕ) : List ℕ → List (ℕ × ℕ)
  | [] => []
  | n :: ns => (loc, loc + n) :: mkRanges (loc + n) ns

theorem mkRanges_append (loc : ℕ) (xs ys : List ℕ) :
    mkRanges loc (xs ++ ys) = mkRanges loc xs ++ mkRanges (loc + xs.sum) ys := by
  induction xs generalizing loc with
  | nil => simp [mkRanges]
  | cons n ns ih =>
    rw [List.cons_append]
    rw [show mkRanges loc (n :: (ns ++ ys))
          = (loc, loc + n) :: mkRanges (loc + n) (ns ++ ys) from rfl]
    rw [show mkRanges loc (n :: ns)
          = (loc, loc + n) :: mkRanges (loc + n) ns from rfl]
    rw [ih (loc + n), List.sum_cons, List.cons_append]
    have h : loc + (n + ns.sum) = loc + n + ns.sum := by omega
    rw [h]

theorem mkRanges_head (loc : ℕ) (ns : List ℕ) :
    ∀ r ∈ (mkRanges loc ns).head?, r.1 = loc := by
  cases ns with
  | nil => intro r hr; simp [mkRanges] at hr
  | cons n ns =>
    intro r hr
    simp only [mkRanges, List.head?_cons, Option.mem_def, Option.some.injEq] at hr
    subst hr; rfl

theorem mkRanges_last (loc : ℕ) (ns : List ℕ) :
    ∀ r ∈ (mkRanges loc ns).getLast?, r.2 = loc + ns.sum := by
  induction ns generalizing loc with
  | nil => intro r hr; simp [mkRanges] at hr
  | cons n ns ih =>
    intro r hr
    cases ns with
    | nil =>
      simp only [mkRanges, List.getLast?_singleton, Option.mem_def,
        Option.some.injEq] at hr
      subst hr; simp [mkRanges]
    | cons m ms =>
      rw [show mkRanges loc (n :: m :: ms)
            = (loc, loc + n) :: mkRanges (loc + n) (m :: ms) from rfl] at hr
      rw [show mkRanges (loc + n) (m :: ms)
            = (loc + n, loc + n + m) :: mkRanges (loc + n + m) ms from rfl] at hr
      rw [List.getLast?_cons_cons] at hr
      rw [← show mkRanges (loc + n) (m :: ms)
            = (loc + n, loc + n + m) :: mkRanges (loc + n + m) ms from rfl] at hr
      have := ih (loc + n) r hr
      rw [this]
      simp [List.sum_cons]
      omega

theorem mkRanges_chain (loc : ℕ) (ns : List ℕ) :
    List.Chain' (fun r1 r2 : ℕ × ℕ => r1.2 = r2.1) (mkRanges loc ns) := by
  induction ns generalizing loc with
  | nil => simp [mkRanges]
  | cons n ns ih =>
    rw [mkRanges, List.chain'_cons']
    refine ⟨fun y hy => ?_, ih (loc + n)⟩
    have := mkRanges_head (loc + n) ns y hy
    simp [this]

theorem edgeSegLoop_length (mag : Vec2 → ℚ) (fcos fsin : ℚ → ℚ)
    (w : List Segment) (de cl : ℚ) :
    (edgeSegLoop mag fcos fsin w de cl).1.length = w.length := by
  induction w generalizing de cl with
  | nil => rfl
  | cons s rest ih => simp [edgeSegLoop, ih]

theorem add_edge_snd_length (mag : Vec2 → ℚ) (fcos fsin : ℚ → ℚ)
    (b : BuilderState) (e : ℕ) (w : List Segment) :
    (add_edge mag fcos fsin b e w).2.2.length = w.length := by
  simp [add_edge, edgeSegLoop_length]

theorem add_edge_range (mag : Vec2 → ℚ) (fcos fsin : ℚ → ℚ)
    (b : BuilderState) (e : ℕ) (w : List Segment) :
    (add_edge mag fcos fsin b e w).2.1 = (b.m_loc, b.m_loc + w.length) := by
  simp [add_edge]

theorem add_edge_loc (mag : Vec2 → ℚ) (fcos fsin : ℚ → ℚ)
    (b : BuilderState) (e : ℕ) (w : List Segment) :
    (add_edge mag fcos fsin b e w).1.m_loc = b.m_loc + w.length := by
  simp [add_edge]

/-- The C++ `add_edge` leaves `m_ende` unchanged. -/
theorem add_edge_ende (mag : Vec2 → ℚ) (fcos fsin : ℚ → ℚ)
    (b : BuilderState) (e : ℕ) (w : List Segment) :
    (add_edge mag fcos fsin b e w).1.m_ende = b.m_ende := by
  simp [add_edge]

theorem contourEdgesLoop_ranges (mag : Vec2 → ℚ) (fcos fsin : ℚ → ℚ)
    (edges : List (List Segment)) (e : ℕ) (b : BuilderState) :
    (contourEdgesLoop mag fcos fsin edges e b).2.map Prod.fst
        = mkRanges b.m_loc (edges.map List.length)
      ∧ (contourEdgesLoop mag fcos fsin edges e b).1.m_loc
        = b.m_loc + (edges.map List.length).sum := by
  induction edges generalizing e b with
  | nil => simp [contourEdgesLoop, mkRanges]
  | cons w rest ih =>
    obtain ⟨ih1, ih2⟩ := ih (e + 1) (add_edge mag fcos fsin b e w).1
    constructor
    · simp only [contourEdgesLoop, List.map_cons, List.map]
      rw [show ((add_edge mag fcos fsin b e w).2.1,
            (add_edge mag fcos fsin b e w).2.2).1
          = (add_edge mag fcos fsin b e w).2.1 from rfl]
      rw [add_edge_range, mkRanges]
      rw [ih1, add_edge_loc]
    · simp only [contourEdgesLoop]
      rw [ih2, add_edge_loc, List.map_cons, List.sum_cons]
      omega

theorem build_contour_ranges (mag : Vec2 → ℚ) (fcos fsin : ℚ → ℚ)
    (loc : ℕ) (edges : List (List Segment)) :
    (build_contour mag fcos fsin loc edges).2.map Prod.fst
        = mkRanges loc (edges.map List.length)
      ∧ (build_contour mag fcos fsin loc edges).1
        = loc + (edges.map List.length).sum := by
  obtain ⟨h1, h2⟩ := contourEdgesLoop_ranges mag fcos fsin edges 0
    { m_loc := loc, m_ende := edges.length, m_contour_length := 0,
      m_open_contour_length := 0, m_closed_contour_length := 0 }
  constructor
  · simp only [build_contour, List.map_map]
    exact h1
  · simp only [build_contour]
    exact h2

/-- Per-edge segment counts are preserved through `build_contour`. -/
theorem build_contour_sizes (mag : Vec2 → ℚ) (fcos fsin : ℚ → ℚ)
    (loc : ℕ) (edges : List (List Segment)) :
    (build_contour mag fcos fsin loc edges).2.map (fun p => p.2.length)
      = edges.map List.length := by
  have aux : ∀ (es : List (List Segment)) (e : ℕ) (b : BuilderState),
      (contourEdgesLoop mag fcos fsin es e b).2.map (fun p => p.2.length)
        = es.map List.length := by
    intro es
    induction es with
    | nil => intro e b; rfl
    | cons w rest ih =>
      intro e b
      simp only [contourEdgesLoop, List.map_cons]
      rw [show ((add_edge mag fcos fsin b e w).2.1,
            (add_edge mag fcos fsin b e w).2.2).2
          = (add_edge mag fcos fsin b e w).2.2 from rfl]
      rw [add_edge_snd_length, ih]
  simp only [build_contour, List.map_map, Function.comp_def, List.length_map]
  exact aux edges 0 _

theorem build_path_ranges (mag : Vec2 → ℚ) (fcos fsin : ℚ → ℚ)
    (contours : List (List (List Segment))) (loc : ℕ) :
    ((build_path mag fcos fsin contours loc).map (fun c => c.map Prod.fst)).flatten
      = mkRanges loc ((contours.map (fun c => c.map List.length)).flatten) := by
  induction contours generalizing loc with
  | nil => simp [build_path, mkRanges]
  | cons c rest ih =>
    simp only [build_path, List.map_cons, List.flatten_cons]
    rw [(build_contour_ranges mag fcos fsin loc c).1]
    rw [ih (build_contour mag fcos fsin loc c).1]
    rw [(build_contour_ranges mag fcos fsin loc c).2]
    rw [mkRanges_append]

theorem build_path_data_length (mag : Vec2 → ℚ) (fcos fsin : ℚ → ℚ)
    (contours : List (List (List Segment))) (loc : ℕ) :
    (((build_path mag fcos fsin contours loc).map (fun c => c.map Prod.snd)).flatten.flatten).length
      = ((contours.map (fun c => c.map List.length)).flatten).sum := by
  induction contours generalizing loc with
  | nil => simp [build_path]
  | cons c rest ih =>
    simp only [build_path, List.map_cons, List.flatten_cons, List.flatten_append,
      List.length_append, List.sum_append]
    rw [ih (build_contour mag fcos fsin loc c).1]
    have hc : ((build_contour mag fcos fsin loc c).2.map Prod.snd).flatten.length
        = (c.map List.length).sum := by
      rw [List.length_flatten, List.map_map]
      have : (List.length ∘ (Prod.snd : (ℕ × ℕ) × List Segment → List Segment))
          = fun p : (ℕ × ℕ) × List Segment => p.2.length := rfl
      rw [this, build_contour_sizes]
    rw [hc]

/-- C10.  The per-edge segment ranges of a `TessellatedPath` contiguously
partition the segment buffer: the flattened sequence of `m_edge_range`
values (in contour order, edges in order within each contour) starts at
`0`, each range begins where the previous one ends (within a contour and
across the contour boundary alike), and the final range ends at
`segment_data().size()`. -/
theorem edge_ranges_partition (mag : Vec2 → ℚ) (fcos fsin : ℚ → ℚ)
    (contours : List (List (List Segment))) (tmps : List (List ℚ))
    (params : TessellationParams) (maxRec : ℕ) :
    (∀ r ∈ ((buildTP mag fcos fsin contours tmps params maxRec).m_edges.flatten).head?,
        r.1 = 0)
      ∧ List.Chain' (fun r1 r2 : ℕ × ℕ => r1.2 = r2.1)
          ((buildTP mag fcos fsin contours tmps params maxRec).m_edges.flatten)
      ∧ (∀ r ∈ ((buildTP mag fcos fsin contours tmps params maxRec).m_edges.flatten).getLast?,
          r.2 = (buildTP mag fcos fsin contours tmps params maxRec).m_segment_data.length) := by
  have he : (buildTP mag fcos fsin contours tmps params maxRec).m_edges.flatten
      = mkRanges 0 ((contours.map (fun c => c.map List.length)).flatten) :=
    build_path_ranges mag fcos fsin contours 0
  have hd : (buildTP mag fcos fsin contours tmps params maxRec).m_segment_data.length
      = ((contours.map (fun c => c.map List.length)).flatten).sum :=
    build_path_data_length mag fcos fsin contours 0
  refine ⟨?_, ?_, ?_⟩
  · rw [he]; exact mkRanges_head 0 _
  · rw [he]; exact mkRanges_chain 0 _
  · rw [he, hd]
    intro r hr
    have := mkRanges_last 0 _ r hr
    omega

/-! Part: C3: cumulative distance fields -/

/-- The step relation of `m_distance_from_edge_start`: the next segment's
distance is the previous distance plus the previous length. -/
def DistStep (a b : Segment) : Prop :=
  b.m_distance_from_edge_start = a.m_distance_from_edge_start + a.m_length

/-- The distance-field contract of one processed edge: the first segment
is at distance `0`, `m_distance_from_edge_start` accumulates segment
lengths, and every segment's `m_edge_length` is the last segment's
distance plus its length. -/
def EdgeProcessed (segs : List Segment) : Prop :=
  (∀ s ∈ segs.head?, s.m_distance_from_edge_start = 0)
    ∧ List.Chain' DistStep segs
    ∧ (∀ last ∈ segs.getLast?, ∀ s ∈ segs,
        s.m_edge_length = last.m_distance_from_edge_start + last.m_length)

theorem edgeSegLoop_headDist (mag : Vec2 → ℚ) (fcos fsin : ℚ → ℚ)
    (w : List Segment) (de cl : ℚ) :
    ∀ s ∈ (edgeSegLoop mag fcos fsin w de cl).1.head?,
      s.m_distance_from_edge_start = de := by
  cases w with
  | nil => intro s hs; simp [edgeSegLoop] at hs
  | cons a rest =>
    intro s hs
    simp only [edgeSegLoop, List.head?_cons, Option.mem_def, Option.some.injEq] at hs
    subst hs; rfl

theorem edgeSegLoop_chain (mag : Vec2 → ℚ) (fcos fsin : ℚ → ℚ)
    (w : List Segment) (de cl : ℚ) :
    List.Chain' DistStep (edgeSegLoop mag fcos fsin w de cl).1 := by
  induction w generalizing de cl with
  | nil => simp [edgeSegLoop]
  | cons a rest ih =>
    simp only [edgeSegLoop]
    rw [List.chain'_cons']
    refine ⟨fun y hy => ?_, ih _ _⟩
    have := edgeSegLoop_headDist mag fcos fsin rest
      (de + (compute_local_segment_values mag fcos fsin a).m_length)
      (cl + (compute_local_segment_values mag fcos fsin a).m_length) y hy
    simp [DistStep, this]

theorem edgeSegLoop_snd (mag : Vec2 → ℚ) (fcos fsin : ℚ → ℚ)
    (w : List Segment) (de cl : ℚ) :
    (edgeSegLoop mag fcos fsin w de cl).2
      = cl + ((edgeSegLoop mag fcos fsin w de cl).1.map Segment.m_length).sum := by
  induction w generalizing de cl with
  | nil => simp [edgeSegLoop]
  | cons a rest ih =>
    simp only [edgeSegLoop, List.map_cons, List.sum_cons]
    rw [ih]
    ring

theorem add_edge_processed (mag : Vec2 → ℚ) (fcos fsin : ℚ → ℚ)
    (b : BuilderState) (e : ℕ) (w : List Segment) :
    EdgeProcessed (add_edge mag fcos fsin b e w).2.2 := by
  simp only [add_edge, EdgeProcessed]
  refine ⟨?_, ?_, ?_⟩
  · intro s hs
    rw [List.head?_map] at hs
    simp only [Option.mem_def, Option.map_eq_some'] at hs
    obtain ⟨s0, hs0, rfl⟩ := hs
    have := edgeSegLoop_headDist mag fcos fsin w 0 b.m_contour_length s0 hs0
    simpa using this
  · rw [List.chain'_map]
    have := edgeSegLoop_chain mag fcos fsin w 0 b.m_contour_length
    refine List.Chain'.imp ?_ this
    intro a c h
    simpa [DistStep] using h
  · intro last hlast s hs
    rw [List.getLast?_map] at hlast
    simp only [Option.mem_def, Option.map_eq_some'] at hlast
    obtain ⟨l0, hl0, rfl⟩ := hlast
    rw [List.mem_map] at hs
    obtain ⟨s0, _, rfl⟩ := hs
    simp [hl0]

/-- A field-preserving map keeps `EdgeProcessed`. -/
theorem edgeProcessed_map (segs : List Segment) (f : Segment → Segment)
    (hd : ∀ s, (f s).m_distance_from_edge_start = s.m_distance_from_edge_start)
    (hl : ∀ s, (f s).m_length = s.m_length)
    (he : ∀ s, (f s).m_edge_length = s.m_edge_length)
    (h : EdgeProcessed segs) : EdgeProcessed (segs.map f) := by
  obtain ⟨h1, h2, h3⟩ := h
  refine ⟨?_, ?_, ?_⟩
  · intro s hs
    rw [List.head?_map] at hs
    simp only [Option.mem_def, Option.map_eq_some'] at hs
    obtain ⟨s0, hs0, rfl⟩ := hs
    rw [hd]
    exact h1 s0 hs0
  · rw [List.chain'_map]
    refine List.Chain'.imp ?_ h2
    intro a c hac
    simp only [DistStep] at hac ⊢
    rw [hd, hd, hl]
    exact hac
  · intro last hlast s hs
    rw [List.getLast?_map] at hlast
    simp only [Option.mem_def, Option.map_eq_some'] at hlast
    obtain ⟨l0, hl0, rfl⟩ := hlast
    rw [List.mem_map] at hs
    obtain ⟨s0, hs0, rfl⟩ := hs
    rw [he, hd, hl]
    exact h3 l0 hl0 s0 hs0

theorem contourEdgesLoop_processed (mag : Vec2 → ℚ) (fcos fsin : ℚ → ℚ)
    (es : List (List Segment)) (e : ℕ) (b : BuilderState) :
    ∀ p ∈ (contourEdgesLoop mag fcos fsin es e b).2, EdgeProcessed p.2 := by
  induction es generalizing e b with
  | nil => intro p hp; simp [contourEdgesLoop] at hp
  | cons w rest ih =>
    intro p hp
    simp only [contourEdgesLoop, List.mem_cons] at hp
    rcases hp with h | h
    · subst h
      exact add_edge_processed mag fcos fsin b e w
    · exact ih (e + 1) _ p h

theorem build_contour_processed (mag : Vec2 → ℚ) (fcos fsin : ℚ → ℚ)
    (loc : ℕ) (edges : List (List Segment)) :
    ∀ p ∈ (build_contour mag fcos fsin loc edges).2, EdgeProcessed p.2 := by
  intro p hp
  simp only [build_contour, List.mem_map] at hp
  obtain ⟨p0, hp0, rfl⟩ := hp
  refine edgeProcessed_map p0.2 _ ?_ ?_ ?_
    (contourEdgesLoop_processed mag fcos fsin edges 0 _ p0 hp0)
  · intro s; rfl
  · intro s; rfl
  · intro s; rfl

theorem add_edge_contour_length (mag : Vec2 → ℚ) (fcos fsin : ℚ → ℚ)
    (b : BuilderState) (e : ℕ) (w : List Segment) :
    (add_edge mag fcos fsin b e w).1.m_contour_length
      = b.m_contour_length
        + (((add_edge mag fcos fsin b e w).2.2).map Segment.m_length).sum := by
  simp only [add_edge, List.map_map]
  rw [show (Segment.m_length ∘ fun s => { s with m_edge_length :=
      match (edgeSegLoop mag fcos fsin w 0 b.m_contour_length).1.getLast? with
      | some last => last.m_distance_from_edge_start + last.m_length
      | none => 0 }) = Segment.m_length from rfl]
  exact edgeSegLoop_snd mag fcos fsin w 0 b.m_contour_length

theorem add_edge_closed (mag : Vec2 → ℚ) (fcos fsin : ℚ → ℚ)
    (b : BuilderState) (e : ℕ) (w : List Segment) :
    (add_edge mag fcos fsin b e w).1.m_closed_contour_length
      = if e + 1 = b.m_ende then (add_edge mag fcos fsin b e w).1.m_contour_length
        else b.m_closed_contour_length := by
  simp [add_edge]

theorem contourEdgesLoop_length (mag : Vec2 → ℚ) (fcos fsin : ℚ → ℚ)
    (es : List (List Segment)) (e : ℕ) (b : BuilderState) :
    (contourEdgesLoop mag fcos fsin es e b).2.length = es.length := by
  induction es generalizing e b with
  | nil => rfl
  | cons w rest ih => simp [contourEdgesLoop, ih]

theorem contourEdgesLoop_contour_length (mag : Vec2 → ℚ) (fcos fsin : ℚ → ℚ)
    (es : List (List Segment)) (e : ℕ) (b : BuilderState) :
    (contourEdgesLoop mag fcos fsin es e b).1.m_contour_length
      = b.m_contour_length
        + ((contourEdgesLoop mag fcos fsin es e b).2.map
            (fun p => (p.2.map Segment.m_length).sum)).sum := by
  induction es generalizing e b with
  | nil => simp [contourEdgesLoop]
  | cons w rest ih =>
    simp only [contourEdgesLoop, List.map_cons, List.sum_cons]
    rw [ih (e + 1) (add_edge mag fcos fsin b e w).1]
    rw [add_edge_contour_length]
    ring

theorem contourEdgesLoop_closed (mag : Vec2 → ℚ) (fcos fsin : ℚ → ℚ)
    (es : List (List Segment)) (e : ℕ) (b : BuilderState)
    (hne : es ≠ []) (hcnt : e + es.length = b.m_ende) :
    (contourEdgesLoop mag fcos fsin es e b).1.m_closed_contour_length
      = (contourEdgesLoop mag fcos fsin es e b).1.m_contour_length := by
  induction es generalizing e b with
  | nil => exact absurd rfl hne
  | cons w rest ih =>
    cases rest with
    | nil =>
      simp only [contourEdgesLoop]
      rw [add_edge_closed]
      have : e + 1 = b.m_ende := by
        simpa using hcnt
      rw [if_pos this]
    | cons w2 rest2 =>
      simp only [contourEdgesLoop]
      refine ih (e + 1) (add_edge mag fcos fsin b e w).1 (by simp) ?_
      rw [add_edge_ende]
      simp only [List.length_cons] at hcnt ⊢
      omega

theorem build_contour_closed (mag : Vec2 → ℚ) (fcos fsin : ℚ → ℚ)
    (loc : ℕ) (edges : List (List Segment)) :
    ∀ p ∈ (build_contour mag fcos fsin loc edges).2, ∀ s ∈ p.2,
      s.m_closed_contour_length
        = ((build_contour mag fcos fsin loc edges).2.map
            (fun q => (q.2.map Segment.m_length).sum)).sum := by
  intro p hp s hs
  simp only [build_contour, List.mem_map] at hp
  obtain ⟨p0, hp0, rfl⟩ := hp
  rw [List.mem_map] at hs
  obtain ⟨s0, _, rfl⟩ := hs
  have hne : edges ≠ [] := by
    intro h
    subst h
    simp [contourEdgesLoop] at hp0
  have hclosed := contourEdgesLoop_closed mag fcos fsin edges 0
    { m_loc := loc, m_ende := edges.length, m_contour_length := 0,
      m_open_contour_length := 0, m_closed_contour_length := 0 }
    hne (by simp)
  have hsum := contourEdgesLoop_contour_length mag fcos fsin edges 0
    { m_loc := loc, m_ende := edges.length, m_contour_length := 0,
      m_open_contour_length := 0, m_closed_contour_length := 0 }
  have hmapsum : ((build_contour mag fcos fsin loc edges).2.map
        (fun q => (q.2.map Segment.m_length).sum)).sum
      = ((contourEdgesLoop mag fcos fsin edges 0
          { m_loc := loc, m_ende := edges.length, m_contour_length := 0,
            m_open_contour_length := 0, m_closed_contour_length := 0 }).2.map
          (fun q => (q.2.map Segment.m_length).sum)).sum := by
    simp only [build_contour, List.map_map]
    congr 1
    apply List.map_congr_left
    intro q _
    simp only [Function.comp_apply, List.map_map]
    rfl
  have hsum' : (contourEdgesLoop mag fcos fsin edges 0
        { m_loc := loc, m_ende := edges.length, m_contour_length := 0,
          m_open_contour_length := 0, m_closed_contour_length := 0 }).1.m_contour_length
      = ((contourEdgesLoop mag fcos fsin edges 0
          { m_loc := loc, m_ende := edges.length, m_contour_length := 0,
            m_open_contour_length := 0, m_closed_contour_length := 0 }).2.map
          (fun q => (q.2.map Segment.m_length).sum)).sum := by
    rw [hsum]
    simp
  rw [hmapsum, ← hsum', ← hclosed]

/-- C3.  For every edge of a built path: segment `0` is at
`m_distance_from_edge_start = 0`, segment `i+1`'s distance is segment
`i`'s distance plus its length, every segment's `m_edge_length` is the
last segment's distance plus its length; and every segment of a contour
carries `m_closed_contour_length` equal to the sum of segment lengths
over all edges of that contour. -/
theorem cumulative_distance_fields (mag : Vec2 → ℚ) (fcos fsin : ℚ → ℚ)
    (contours : List (List (List Segment))) (loc : ℕ) :
    ∀ c ∈ build_path mag fcos fsin contours loc,
      (∀ p ∈ c, EdgeProcessed p.2)
        ∧ (∀ p ∈ c, ∀ s ∈ p.2,
            s.m_closed_contour_length
              = (c.map (fun q => (q.2.map Segment.m_length).sum)).sum) := by
  induction contours generalizing loc with
  | nil => intro c hc; simp [build_path] at hc
  | cons c0 rest ih =>
    intro c hc
    simp only [build_path, List.mem_cons] at hc
    rcases hc with h | h
    · subst h
      exact ⟨build_contour_processed mag fcos fsin loc c0,
        build_contour_closed mag fcos fsin loc c0⟩
    · exact ih _ c h

/-! Part: C7 / C8: the Refiner and the `TessellatedPath` constructors

`PathContour::tessellation_state::resume_tessellation` and
`interpolator_base::produce_tessellation` live in `Path.cpp`, outside the
sources at hand, so they appear here as uninterpreted function-valued
fields: every theorem holds for all possible tessellation callbacks. -/

/-- The C++ `PathContour::tessellation_state`: `resume_tessellation(params,
storage, &tmp)` appends segments to the storage and reports the achieved
max distance; `recursion_depth()` is read afterwards.  Modelled as one
function returning (segments, tmp, recursion depth after resuming). -/
structure TessState where
  resume_tessellation : TessellationParams → List Segment × ℚ × ℕ

/-- The C++ `PathContour::interpolator_base`: `produce_tessellation(params,
storage, &tmp)` appends segments and reports the achieved max
distance. -/
structure Interpolator where
  produce_tessellation : TessellationParams → List Segment × ℚ

/-- The C++ `PerEdge` of `RefinerPrivate`: the saved tessellation state (null
when the interpolator returned none) and the interpolator. -/
structure RefinerPerEdge where
  m_tess_state : Option TessState
  m_interpolator : Interpolator

/-- The C++ `PerContour` of `RefinerPrivate`. -/
structure RefinerPerContour where
  m_edges : List RefinerPerEdge

/-- The C++ `RefinerPrivate`: the currently held `TessellatedPath` and the saved
per-contour, per-edge records. -/
structure RefinerPrivate where
  m_path : TessPath
  m_contours : List RefinerPerContour

/-- The per-edge branch of `TessellatedPath(Refiner*, ...)`: resume the
saved tessellation state when one exists, otherwise call the
interpolator's `produce_tessellation`.  Returns (segments, tmp,
recursion-depth contribution used for `m_max_recursion`). -/
def refinerEdgeOutput (params : TessellationParams) (pe : RefinerPerEdge) :
    List Segment × ℚ × ℕ :=
  match pe.m_tess_state with
  | some st => st.resume_tessellation params
  | none =>
      ((pe.m_interpolator.produce_tessellation params).1,
       (pe.m_interpolator.produce_tessellation params).2, 0)

/-- The `TessellationParams` assembled by
`TessellatedPath(Refiner*, float, unsigned int)`: `m_allow_arcs` copied
from the held path, the requested `max_distance`, and `max_recursion`
increased by `additional_recursion_count`. -/
def refinerParams (r : RefinerPrivate) (max_distance : ℚ)
    (additional_recursion_count : ℕ) : TessellationParams :=
  { m_max_distance := max_distance
    m_max_recursion := r.m_path.m_max_recursion + additional_recursion_count
    m_allow_arcs := r.m_path.m_params.m_allow_arcs }

/-- The C++ `TessellatedPath::TessellatedPath(Refiner *p, float max_distance,
unsigned int additional_recursion_count)`: build a new path over the
refiner's recorded contours/edges with `refinerParams`. -/
def tessPathFromRefiner (mag : Vec2 → ℚ) (fcos fsin : ℚ → ℚ)
    (r : RefinerPrivate) (max_distance : ℚ)
    (additional_recursion_count : ℕ) : TessPath :=
  buildTP mag fcos fsin
    (r.m_contours.map (fun c => c.m_edges.map
      (fun pe => (refinerEdgeOutput (refinerParams r max_distance
        additional_recursion_count) pe).1)))
    (r.m_contours.map (fun c => c.m_edges.map
      (fun pe => (refinerEdgeOutput (refinerParams r max_distance
        additional_recursion_count) pe).2.1)))
    (refinerParams r max_distance additional_recursion_count)
    (r.m_contours.foldl (fun acc c => c.m_edges.foldl (fun a pe =>
      match pe.m_tess_state with
      | some _ => max a (refinerEdgeOutput (refinerParams r max_distance
          additional_recursion_count) pe).2.2
      | none => a) acc) 0)

/-- The C++ `Refiner::refine_tessellation(max_distance,
additional_recursion_count)`: rebuild the held path only when its
recorded `max_distance()` exceeds the requested threshold. -/
def refine_tessellation (mag : Vec2 → ℚ) (fcos fsin : ℚ → ℚ)
    (r : RefinerPrivate) (max_distance : ℚ)
    (additional_recursion_count : ℕ) : RefinerPrivate :=
  if r.m_path.m_max_distance > max_distance then
    { r with m_path := (tessPathFromRefiner mag fcos fsin r max_distance
        additional_recursion_count) }
  else r

theorem build_path_lengths (mag : Vec2 → ℚ) (fcos fsin : ℚ → ℚ)
    (contours : List (List (List Segment))) (loc : ℕ) :
    (build_path mag fcos fsin contours loc).map List.length
      = contours.map List.length := by
  induction contours generalizing loc with
  | nil => rfl
  | cons c rest ih =>
    simp only [build_path, List.map_cons, ih]
    have : (build_contour mag fcos fsin loc c).2.length = c.length := by
      simp only [build_contour, List.length_map]
      exact contourEdgesLoop_length mag fcos fsin c 0 _
    rw [this]

/-- C7.  `Refiner::refine_tessellation` leaves the held path unchanged
when its `max_distance()` is at most the requested threshold; when the
threshold is strictly tighter, it builds a new path by re-running the
saved `resume_tessellation` of each edge (falling back to
`produce_tessellation` when no state was saved, via
`refinerEdgeOutput`), over the same contours: the rebuilt path has one
contour per refiner contour, the same number of edges per contour, and
its segment buffer is exactly the concatenation of the per-edge
re-tessellations. -/
theorem refiner_refine_only_when_needed (mag : Vec2 → ℚ) (fcos fsin : ℚ → ℚ)
    (r : RefinerPrivate) (md : ℚ) (arc : ℕ) :
    (¬ md < r.m_path.m_max_distance →
        refine_tessellation mag fcos fsin r md arc = r)
      ∧ (md < r.m_path.m_max_distance →
          number_contours ((refine_tessellation mag fcos fsin r md arc).m_path)
              = r.m_contours.length
            ∧ ((refine_tessellation mag fcos fsin r md arc).m_path.m_edges.map
                List.length
              = r.m_contours.map (fun c => c.m_edges.length))
            ∧ ((refine_tessellation mag fcos fsin r md arc).m_path.m_segment_data.length
              = ((r.m_contours.map (fun c => c.m_edges.map (fun pe =>
                  (refinerEdgeOutput (refinerParams r md arc) pe).1.length))).flatten).sum)) := by
  constructor
  · intro h
    rw [refine_tessellation, if_neg (by simpa [gt_iff_lt] using h)]
  · intro h
    rw [refine_tessellation, if_pos (by simpa [gt_iff_lt] using h)]
    refine ⟨?_, ?_, ?_⟩
    · simp only [tessPathFromRefiner, buildTP, number_contours, List.length_map]
      rw [show ((build_path mag fcos fsin (r.m_contours.map (fun c => c.m_edges.map
            (fun pe => (refinerEdgeOutput (refinerParams r md arc) pe).1))) 0).length)
          = ((build_path mag fcos fsin (r.m_contours.map (fun c => c.m_edges.map
            (fun pe => (refinerEdgeOutput (refinerParams r md arc) pe).1))) 0).map
              List.length).length
          from (List.length_map _ _).symm]
      rw [build_path_lengths]
      simp
    · simp only [tessPathFromRefiner, buildTP, List.map_map]
      have hcomp : (List.length ∘ fun c : List ((ℕ × ℕ) × List Segment) =>
          c.map Prod.fst) = List.length := by
        funext c
        simp
      rw [hcomp, build_path_lengths]
      simp [Function.comp_def]
    · simp only [tessPathFromRefiner, buildTP]
      rw [build_path_data_length]
      congr 1
      simp [List.map_map, Function.comp_def]

/-- One contour of an input `fastuidraw::Path`, reduced to the fields the
`TessellatedPath(const Path&, ...)` constructor reads: the interpolator
of each of its `number_points()` edges. -/
structure PathContourModel where
  m_interpolators : List Interpolator

/-- The C++ `TessellatedPath::TessellatedPath(const Path &input,
TessellationParams TP, ...)`: the private data is sized to
`input.number_contours()`; with zero contours the constructor returns
immediately, leaving the empty, valid path; otherwise every contour's
edges are tessellated in order and assembled.  (`m_max_recursion`
accumulation from returned tessellation states is irrelevant to the
claims and recorded as `0`.) -/
def tessPathFromPath (mag : Vec2 → ℚ) (fcos fsin : ℚ → ℚ)
    (input : List PathContourModel) (TP : TessellationParams) : TessPath :=
  if input.isEmpty then
    { m_edges := []
      m_segment_data := []
      m_max_distance := 0
      m_max_recursion := 0
      m_has_arcs := false
      m_params := TP }
  else
    buildTP mag fcos fsin
      (input.map (fun c => c.m_interpolators.map
        (fun ip => (ip.produce_tessellation TP).1)))
      (input.map (fun c => c.m_interpolators.map
        (fun ip => (ip.produce_tessellation TP).2)))
      TP 0

/-- C8.  Constructing a `TessellatedPath` from a `Path` with zero
contours succeeds and yields the valid empty path: `number_contours()`
is `0` and `segment_data()` is empty (the construction is total, so no
assertion can fire). -/
theorem empty_path_tessellation (mag : Vec2 → ℚ) (fcos fsin : ℚ → ℚ)
    (TP : TessellationParams) :
    number_contours (tessPathFromPath mag fcos fsin [] TP) = 0
      ∧ (tessPathFromPath mag fcos fsin [] TP).m_segment_data = [] := by
  constructor <;> rfl

/-! Part: C9: lazy `stroked()` / `filled()` accessors -/

/-- The C++ `fastuidraw::StrokedPath`, reduced to its construction source
(`StrokedPath(*this)`). -/
structure StrokedPath where
  m_source : TessPath
deriving DecidableEq

/-- The C++ `fastuidraw::FilledPath`, reduced to its construction source
(`FilledPath(*this)`). -/
structure FilledPath where
  m_source : TessPath
deriving DecidableEq

/-- A `TessellatedPath` object together with its mutable derived-geometry
caches `m_stroked` / `m_filled` (null = not yet built). -/
structure TessPathObject where
  m_data : TessPath
  m_stroked : Option StrokedPath
  m_filled : Option FilledPath
deriving DecidableEq

/-- The C++ `TessellatedPath::stroked()`: construct the `StrokedPath` when the
cache is null, then return the cache.  Returns (state after the call,
returned reference). -/
def stroked (d : TessPathObject) : TessPathObject × Option StrokedPath :=
  if d.m_stroked.isNone then
    ({ d with m_stroked := some { m_source := d.m_data } },
     some { m_source := d.m_data })
  else (d, d.m_stroked)

/-- The C++ `TessellatedPath::filled()`: construct the `FilledPath` only when
the cache is null *and* the path has no arcs, then return the cache
(possibly still null). -/
def filled (d : TessPathObject) : TessPathObject × Option FilledPath :=
  if d.m_filled.isNone && !d.m_data.m_has_arcs then
    ({ d with m_filled := some { m_source := d.m_data } },
     some { m_source := d.m_data })
  else (d, d.m_filled)

/-- A concrete `TessellatedPath` state whose geometry contains arcs and
whose caches are empty. -/
def arcPathObject : TessPathObject :=
  { m_data :=
      { m_edges := []
        m_segment_data := []
        m_max_distance := 0
        m_max_recursion := 0
        m_has_arcs := true
        m_params := { m_max_distance := 0, m_max_recursion := 0, m_allow_arcs := true } }
    m_stroked := none
    m_filled := none }

/-- Counterexample to C9 as stated: on a path containing arc segments,
the first access to `filled()` does *not* construct a `FilledPath` — the
guard `!m_has_arcs` makes it return a null reference and leave the cache
empty. -/
theorem filled_not_constructed_with_arcs :
    arcPathObject.m_filled = none
      ∧ (filled arcPathObject).2 = none
      ∧ (filled arcPathObject).1 = arcPathObject := by
  refine ⟨rfl, ?_, ?_⟩ <;> rfl

/-- C9 (amended).  `stroked()` constructs the `StrokedPath` on first
access and returns the cached object unchanged on every later call;
`filled()` behaves the same way only when the path has no arcs — when
`has_arcs()` holds it never constructs and always returns the (null)
cache unchanged. -/
theorem lazy_accessors_cached (d : TessPathObject) :
    (d.m_stroked = none → (stroked d).2 = some { m_source := d.m_data })
      ∧ (∀ s, d.m_stroked = some s → stroked d = (d, some s))
      ∧ stroked (stroked d).1 = ((stroked d).1, (stroked d).2)
      ∧ (d.m_data.m_has_arcs = true → filled d = (d, d.m_filled))
      ∧ (d.m_filled = none → d.m_data.m_has_arcs = false →
          (filled d).2 = some { m_source := d.m_data })
      ∧ (∀ fp, d.m_filled = some fp → filled d = (d, some fp))
      ∧ filled (filled d).1 = ((filled d).1, (filled d).2) := by
  refine ⟨?_, ?_, ?_, ?_, ?_, ?_, ?_⟩
  · intro h
    simp [stroked, h]
  · intro s h
    simp [stroked, h]
  · rcases hs : d.m_stroked with _ | s
    · simp [stroked, hs]
    · simp [stroked, hs]
  · intro h
    rcases hf : d.m_filled with _ | fp
    · simp [filled, h, hf]
    · simp [filled, h, hf]
  · intro h1 h2
    simp [filled, h1, h2]
  · intro fp h
    simp [filled, h]
  · rcases hf : d.m_filled with _ | fp
    · rcases ha : d.m_data.m_has_arcs with _ | _
      · simp [filled, hf, ha]
      · simp [filled, hf, ha]
    · simp [filled, hf]

/-! Part: The sweep tessellator (`glu-tess/sweep.cpp`) -/

/-- The C++ `VertLeq(u, v)`: the lexicographic event order
`u->s < v->s || (u->s == v->s && u->t <= v->t)` on sweep coordinates. -/
def VertLeq (u v : ℚ × ℚ) : Prop :=
  u.1 < v.1 ∨ (u.1 = v.1 ∧ u.2 ≤ v.2)

instance (u v : ℚ × ℚ) : Decidable (VertLeq u v) :=
  inferInstanceAs (Decidable (_ ∨ _))

/-- The C++ `VertEq(u, v)`: exact coordinate equality. -/
def VertEq (u v : ℚ × ℚ) : Prop := u.1 = v.1 ∧ u.2 = v.2

instance (u v : ℚ × ℚ) : Decidable (VertEq u v) :=
  inferInstanceAs (Decidable (_ ∧ _))

theorem vertLeq_refl (u : ℚ × ℚ) : VertLeq u u := Or.inr ⟨rfl, le_refl _⟩

theorem vertLeq_total (u v : ℚ × ℚ) : VertLeq u v ∨ VertLeq v u := by
  rcases lt_trichotomy u.1 v.1 with h | h | h
  · exact Or.inl (Or.inl h)
  · rcases le_total u.2 v.2 with h2 | h2
    · exact Or.inl (Or.inr ⟨h, h2⟩)
    · exact Or.inr (Or.inr ⟨h.symm, h2⟩)
  · exact Or.inr (Or.inl h)

theorem vertLeq_of_not (u v : ℚ × ℚ) (h : ¬ VertLeq u v) : VertLeq v u :=
  (vertLeq_total u v).resolve_left h

theorem vertLeq_trans {u v w : ℚ × ℚ} (h1 : VertLeq u v) (h2 : VertLeq v w) :
    VertLeq u w := by
  rcases h1 with h1 | ⟨h1, h1'⟩ <;> rcases h2 with h2 | ⟨h2, h2'⟩
  · exact Or.inl (lt_trans h1 h2)
  · exact Or.inl (h2 ▸ h1)
  · exact Or.inl (h1 ▸ h2)
  · exact Or.inr ⟨h1.trans h2, h1'.trans h2'⟩

theorem vertLeq_antisymm {u v : ℚ × ℚ} (h1 : VertLeq u v) (h2 : VertLeq v u) :
    VertEq u v := by
  rcases h1 with h1 | ⟨h1, h1'⟩ <;> rcases h2 with h2 | ⟨h2, h2'⟩
  · exact absurd h2 (lt_asymm h1)
  · exact absurd h1 (h2 ▸ lt_irrefl _)
  · exact absurd h2 (h1 ▸ lt_irrefl _)
  · exact ⟨h1, le_antisymm h1' h2'⟩

theorem vertEq_trans_leq {u v w : ℚ × ℚ} (h : VertEq u v) (h2 : VertLeq v w) :
    VertLeq u w := by
  obtain ⟨e1, e2⟩ := h
  rcases h2 with h2 | ⟨h2, h2'⟩
  · exact Or.inl (e1 ▸ h2)
  · exact Or.inr ⟨e1.trans h2, e2 ▸ h2'⟩

/-- A priority-queue vertex: client id paired with `(s, t)` sweep
coordinates. -/
abbrev GVertex := ℕ × (ℚ × ℚ)

/-- The running-minimum fold underlying `pqMinimum`: replace the current
candidate whenever a strictly smaller vertex (in `VertLeq`) appears. -/
def pqFoldMin (v : GVertex) (l : List GVertex) : GVertex :=
  l.foldl (fun m w => if VertLeq w.2 m.2 ∧ ¬ VertLeq m.2 w.2 then w else m) v

/-- The C++ `pqMinimum`: some minimal vertex of the queue, `none` when empty. -/
def pqMin : List GVertex → Option GVertex
  | [] => none
  | v :: rest => some (pqFoldMin v rest)

theorem pqFoldMin_le_init (v : GVertex) (l : List GVertex) :
    VertLeq (pqFoldMin v l).2 v.2 := by
  induction l generalizing v with
  | nil => exact vertLeq_refl _
  | cons w l ih =>
    rw [show pqFoldMin v (w :: l)
        = pqFoldMin (if VertLeq w.2 v.2 ∧ ¬ VertLeq v.2 w.2 then w else v) l from rfl]
    by_cases h : VertLeq w.2 v.2 ∧ ¬ VertLeq v.2 w.2
    · rw [if_pos h]
      exact vertLeq_trans (ih w) h.1
    · rw [if_neg h]
      exact ih v

theorem pqFoldMin_le_mem (v : GVertex) (l : List GVertex) :
    ∀ w ∈ l, VertLeq (pqFoldMin v l).2 w.2 := by
  induction l generalizing v with
  | nil => intro w hw; simp at hw
  | cons u l ih =>
    intro w hw
    rw [show pqFoldMin v (u :: l)
        = pqFoldMin (if VertLeq u.2 v.2 ∧ ¬ VertLeq v.2 u.2 then u else v) l from rfl]
    rcases List.mem_cons.mp hw with h | h
    · subst h
      by_cases hc : VertLeq w.2 v.2 ∧ ¬ VertLeq v.2 w.2
      · rw [if_pos hc]
        exact pqFoldMin_le_init w l
      · rw [if_neg hc]
        have hvw : VertLeq v.2 w.2 := by
          by_cases hb : VertLeq w.2 v.2
          · rcases Decidable.not_and_iff_or_not.mp hc with h' | h'
            · exact absurd hb h'
            · exact Decidable.not_not.mp h'
          · exact vertLeq_of_not _ _ hb
        exact vertLeq_trans (pqFoldMin_le_init v l) hvw
    · by_cases hc : VertLeq u.2 v.2 ∧ ¬ VertLeq v.2 u.2
      · rw [if_pos hc]; exact ih u w h
      · rw [if_neg hc]; exact ih v w h

theorem pqFoldMin_mem (v : GVertex) (l : List GVertex) :
    pqFoldMin v l ∈ v :: l := by
  induction l generalizing v with
  | nil => exact List.mem_cons_self _ _
  | cons u l ih =>
    rw [show pqFoldMin v (u :: l)
        = pqFoldMin (if VertLeq u.2 v.2 ∧ ¬ VertLeq v.2 u.2 then u else v) l from rfl]
    by_cases hc : VertLeq u.2 v.2 ∧ ¬ VertLeq v.2 u.2
    · rw [if_pos hc]
      exact List.mem_cons_of_mem _ (ih u)
    · rw [if_neg hc]
      rcases List.mem_cons.mp (ih v) with h | h
      · rw [h]
        exact List.mem_cons_self _ _
      · exact List.mem_cons_of_mem _ (List.mem_cons_of_mem _ h)

theorem pqMin_mem {q : List GVertex} {v : GVertex} (h : pqMin q = some v) :
    v ∈ q := by
  cases q with
  | nil => simp [pqMin] at h
  | cons a rest =>
    simp only [pqMin, Option.some.injEq] at h
    subst h
    exact pqFoldMin_mem a rest

theorem pqMin_le {q : List GVertex} {v : GVertex} (h : pqMin q = some v) :
    ∀ w ∈ q, VertLeq v.2 w.2 := by
  cases q with
  | nil => simp [pqMin] at h
  | cons a rest =>
    simp only [pqMin, Option.some.injEq] at h
    subst h
    intro w hw
    rcases List.mem_cons.mp hw with h | h
    · exact h ▸ pqFoldMin_le_init a rest
    · exact pqFoldMin_le_mem a rest w h

/-- The inner merge loop of `glu_fastuidraw_gl_computeInterior`: while
the queue's minimum has exactly the coordinates of the current event
`v`, extract it and splice-merge it into `v`'s mesh vertex.  The C++
loop runs until the test fails; since each pass removes one element,
running it with `fuel = q.length` is exhaustive. -/
def mergeLoop (v : GVertex) : (fuel : ℕ) → List GVertex → List GVertex
  | 0, q => q
  | fuel + 1, q =>
      match pqMin q with
      | none => q
      | some u => if VertEq u.2 v.2 then mergeLoop v fuel (q.erase u) else q

/-- The event loop of `glu_fastuidraw_gl_computeInterior`: repeatedly
extract the minimal vertex, merge away every queued vertex with the same
coordinates, then hand the event to `SweepEvent` (an uninterpreted
state transformer, since it may insert new intersection events).
Records each `(event, queue at the SweepEvent call)` pair. -/
def sweepLoop (sweepEvent : GVertex → List GVertex → List GVertex) :
    (fuel : ℕ) → List GVertex → List (GVertex × List GVertex)
  | 0, _ => []
  | fuel + 1, q =>
      match pqMin q with
      | none => []
      | some v =>
          (v, mergeLoop v (q.erase v).length (q.erase v)) ::
            sweepLoop sweepEvent fuel
              (sweepEvent v (mergeLoop v (q.erase v).length (q.erase v)))

theorem vertEq_coords {u v : ℚ × ℚ} (h : VertEq u v) : u = v :=
  Prod.ext h.1 h.2

theorem mergeLoop_no_dup (v : GVertex) :
    ∀ (fuel : ℕ) (q : List GVertex), q.length ≤ fuel →
      (∀ w ∈ q, VertLeq v.2 w.2) →
      ∀ w ∈ mergeLoop v fuel q, ¬ VertEq w.2 v.2 := by
  intro fuel
  induction fuel with
  | zero =>
    intro q hlen _ w hw
    have hq : q = [] := List.eq_nil_of_length_eq_zero (Nat.le_zero.mp hlen)
    rw [hq] at hw
    simp [mergeLoop] at hw
  | succ n ih =>
    intro q hlen hq w hw heq
    cases q with
    | nil => simp [mergeLoop, pqMin] at hw
    | cons a rest =>
      have hm : pqMin (a :: rest) = some (pqFoldMin a rest) := rfl
      rw [show mergeLoop v (n + 1) (a :: rest)
          = if VertEq (pqFoldMin a rest).2 v.2 then
              mergeLoop v n ((a :: rest).erase (pqFoldMin a rest))
            else (a :: rest) from rfl] at hw
      by_cases hc : VertEq (pqFoldMin a rest).2 v.2
      · rw [if_pos hc] at hw
        have humem : pqFoldMin a rest ∈ a :: rest := pqMin_mem hm
        have hlen' : ((a :: rest).erase (pqFoldMin a rest)).length ≤ n := by
          rw [List.length_erase_of_mem humem]
          simp only [List.length_cons] at hlen ⊢
          omega
        have hq' : ∀ w' ∈ (a :: rest).erase (pqFoldMin a rest),
            VertLeq v.2 w'.2 := fun w' hw' =>
          hq w' (List.mem_of_mem_erase hw')
        exact ih _ hlen' hq' w hw heq
      · rw [if_neg hc] at hw
        have h1 : VertLeq (pqFoldMin a rest).2 w.2 := pqMin_le hm w hw
        have h2 : VertLeq v.2 (pqFoldMin a rest).2 := hq _ (pqMin_mem hm)
        rw [vertEq_coords heq] at h1
        exact hc (vertLeq_antisymm h1 h2)

/-- C4.  In the event loop of `glu_fastuidraw_gl_computeInterior`,
whenever `SweepEvent` is invoked on an extracted vertex `v`, no vertex
with coordinates `VertEq`-equal to `v` remains in the priority queue:
the inner loop has already extracted and splice-merged every such
duplicate.  Stated over the recorded `(event, queue)` pairs of the
loop, for every `SweepEvent` behaviour. -/
theorem no_duplicate_at_sweep_event
    (sweepEvent : GVertex → List GVertex → List GVertex)
    (fuel : ℕ) (q0 : List GVertex) :
    ∀ p ∈ sweepLoop sweepEvent fuel q0, ∀ w ∈ p.2, ¬ VertEq w.2 p.1.2 := by
  induction fuel generalizing q0 with
  | zero => intro p hp; simp [sweepLoop] at hp
  | succ n ih =>
    intro p hp
    cases hq : q0 with
    | nil =>
      rw [hq] at hp
      simp [sweepLoop, pqMin] at hp
    | cons a rest =>
      rw [hq] at hp
      have hm : pqMin (a :: rest) = some (pqFoldMin a rest) := rfl
      rw [show sweepLoop sweepEvent (n + 1) (a :: rest)
          = (pqFoldMin a rest,
              mergeLoop (pqFoldMin a rest)
                ((a :: rest).erase (pqFoldMin a rest)).length
                ((a :: rest).erase (pqFoldMin a rest))) ::
            sweepLoop sweepEvent n
              (sweepEvent (pqFoldMin a rest)
                (mergeLoop (pqFoldMin a rest)
                  ((a :: rest).erase (pqFoldMin a rest)).length
                  ((a :: rest).erase (pqFoldMin a rest)))) from rfl] at hp
      rcases List.mem_cons.mp hp with h | h
      · subst h
        intro w hw
        refine mergeLoop_no_dup _ _ _ (le_refl _) ?_ w hw
        intro w' hw'
        exact pqMin_le hm w' (List.mem_of_mem_erase hw')
      · exact ih _ p h

/-! Part: C6: intersection-vertex weights and clamps (`CheckForIntersect`) -/

/-- The C++ `VertL1dist(u, v)`: the L1 distance used by `VertexWeights`. -/
def VertL1dist (u v : ℚ × ℚ) : ℚ := |u.1 - v.1| + |u.2 - v.2|

/-- The C++ `VertexWeights(isect, org, dst, weights)`: the edge's 50% share of
the blend weight is split between `org` and `dst` by relative L1
distance to the intersection. -/
def VertexWeights (isect org dst : ℚ × ℚ) : ℚ × ℚ :=
  (((1 : ℚ) / 2) * VertL1dist dst isect
      / (VertL1dist org isect + VertL1dist dst isect),
   ((1 : ℚ) / 2) * VertL1dist org isect
      / (VertL1dist org isect + VertL1dist dst isect))

/-- The two defensive clamps of `CheckForIntersect` applied to the raw
output of `glu_fastuidraw_gl_edgeIntersect`: if the computed point lies
left of the sweep event (in `VertLeq`), replace it by the event; then if
it lies right of the leftmost of the two edge origins
(`orgMin`), replace it by that origin. -/
def clampIntersection (event orgUp orgLo isect : ℚ × ℚ) : ℚ × ℚ :=
  let i1 := if VertLeq isect event then event else isect
  let orgMin := if VertLeq orgUp orgLo then orgUp else orgLo
  if VertLeq orgMin i1 then orgMin else i1

/-- C6.  The synthesized intersection vertex: each of the two edges
contributes exactly half of the blend weight, split between its origin
and destination in proportion to their distances to the intersection
(`w_org * t_org = w_dst * t_dst`); and after the two clamps the vertex
lies neither left of the current sweep event nor right of either edge
origin, in the `VertLeq` order (so in particular not right of the
rightmost contributing vertex). -/
theorem intersection_blend_and_clamp (event orgUp orgLo isect org dst : ℚ × ℚ)
    (hdist : VertL1dist org isect + VertL1dist dst isect ≠ 0)
    (hev : VertLeq event (if VertLeq orgUp orgLo then orgUp else orgLo)) :
    ((VertexWeights isect org dst).1 + (VertexWeights isect org dst).2 = 1 / 2)
      ∧ ((VertexWeights isect org dst).1 * VertL1dist org isect
          = (VertexWeights isect org dst).2 * VertL1dist dst isect)
      ∧ VertLeq event (clampIntersection event orgUp orgLo isect)
      ∧ VertLeq (clampIntersection event orgUp orgLo isect) orgUp
      ∧ VertLeq (clampIntersection event orgUp orgLo isect) orgLo := by
  have hminUp : VertLeq (if VertLeq orgUp orgLo then orgUp else orgLo) orgUp := by
    by_cases h : VertLeq orgUp orgLo
    · rw [if_pos h]; exact vertLeq_refl _
    · rw [if_neg h]; exact vertLeq_of_not _ _ h
  have hminLo : VertLeq (if VertLeq orgUp orgLo then orgUp else orgLo) orgLo := by
    by_cases h : VertLeq orgUp orgLo
    · rw [if_pos h]; exact h
    · rw [if_neg h]; exact vertLeq_refl _
  have hi1 : VertLeq event (if VertLeq isect event then event else isect) := by
    by_cases h : VertLeq isect event
    · rw [if_pos h]; exact vertLeq_refl _
    · rw [if_neg h]; exact vertLeq_of_not _ _ h
  refine ⟨?_, ?_, ?_, ?_, ?_⟩
  · rw [VertexWeights]
    field_simp
    ring
  · rw [VertexWeights]
    field_simp
    ring
  · rw [clampIntersection]
    by_cases h : VertLeq (if VertLeq orgUp orgLo then orgUp else orgLo)
        (if VertLeq isect event then event else isect)
    · simp only [if_pos h]
      exact hev
    · simp only [if_neg h]
      exact hi1
  · rw [clampIntersection]
    by_cases h : VertLeq (if VertLeq orgUp orgLo then orgUp else orgLo)
        (if VertLeq isect event then event else isect)
    · simp only [if_pos h]
      exact hminUp
    · simp only [if_neg h]
      exact vertLeq_trans (vertLeq_of_not _ _ h) hminUp
  · rw [clampIntersection]
    by_cases h : VertLeq (if VertLeq orgUp orgLo then orgUp else orgLo)
        (if VertLeq isect event then event else isect)
    · simp only [if_pos h]
      exact hminLo
    · simp only [if_neg h]
      exact vertLeq_trans (vertLeq_of_not _ _ h) hminLo

/-! Part: C1 — chain continuity at the built-path level -/

/-- The endpoint pair of a segment; chain continuity only depends on
it. -/
def endPts (s : Segment) : Vec2 × Vec2 := (s.m_start_pt, s.m_end_pt)

theorem endPts_compute_local (mag : Vec2 → ℚ) (fcos fsin : ℚ → ℚ)
    (s : Segment) :
    endPts (compute_local_segment_values mag fcos fsin s) = endPts s := by
  unfold compute_local_segment_values
  split <;> rfl

/-- Chain continuity transfers between segment lists with the same
endpoint projections. -/
theorem chain_contig_iff_endPts (l : List Segment) :
    List.Chain' Contig l
      ↔ List.Chain' (fun a b : Vec2 × Vec2 => a.2 = b.1) (l.map endPts) := by
  rw [List.chain'_map]
  constructor <;> exact fun h => List.Chain'.imp (fun a b hab => hab) h

theorem edgeSegLoop_endPts (mag : Vec2 → ℚ) (fcos fsin : ℚ → ℚ)
    (w : List Segment) (de cl : ℚ) :
    (edgeSegLoop mag fcos fsin w de cl).1.map endPts = w.map endPts := by
  induction w generalizing de cl with
  | nil => rfl
  | cons s rest ih =>
    simp only [edgeSegLoop, List.map_cons, ih]
    rw [show endPts { compute_local_segment_values mag fcos fsin s with
          m_distance_from_edge_start := de
          m_distance_from_contour_start := cl }
        = endPts (compute_local_segment_values mag fcos fsin s) from rfl]
    rw [endPts_compute_local]

theorem add_edge_endPts (mag : Vec2 → ℚ) (fcos fsin : ℚ → ℚ)
    (b : BuilderState) (e : ℕ) (w : List Segment) :
    (add_edge mag fcos fsin b e w).2.2.map endPts = w.map endPts := by
  simp only [add_edge, List.map_map]
  rw [show (endPts ∘ fun s => { s with m_edge_length :=
      match (edgeSegLoop mag fcos fsin w 0 b.m_contour_length).1.getLast? with
      | some last => last.m_distance_from_edge_start + last.m_length
      | none => 0 }) = endPts from rfl]
  exact edgeSegLoop_endPts mag fcos fsin w 0 b.m_contour_length

theorem add_edge_chain (mag : Vec2 → ℚ) (fcos fsin : ℚ → ℚ)
    (b : BuilderState) (e : ℕ) (w : List Segment)
    (h : List.Chain' Contig w) :
    List.Chain' Contig (add_edge mag fcos fsin b e w).2.2 := by
  rw [chain_contig_iff_endPts, add_edge_endPts]
  rw [chain_contig_iff_endPts] at h
  exact h

theorem contourEdgesLoop_chain (mag : Vec2 → ℚ) (fcos fsin : ℚ → ℚ)
    (es : List (List Segment)) (e : ℕ) (b : BuilderState)
    (h : ∀ w ∈ es, List.Chain' Contig w) :
    ∀ p ∈ (contourEdgesLoop mag fcos fsin es e b).2,
      List.Chain' Contig p.2 := by
  induction es generalizing e b with
  | nil => intro p hp; simp [contourEdgesLoop] at hp
  | cons w rest ih =>
    intro p hp
    simp only [contourEdgesLoop, List.mem_cons] at hp
    rcases hp with hp | hp
    · subst hp
      exact add_edge_chain mag fcos fsin b e w (h w (List.mem_cons_self _ _))
    · exact ih (e + 1) _ (fun w' hw' => h w' (List.mem_cons_of_mem _ hw')) p hp

theorem build_contour_chain (mag : Vec2 → ℚ) (fcos fsin : ℚ → ℚ)
    (loc : ℕ) (edges : List (List Segment))
    (h : ∀ w ∈ edges, List.Chain' Contig w) :
    ∀ p ∈ (build_contour mag fcos fsin loc edges).2,
      List.Chain' Contig p.2 := by
  intro p hp
  simp only [build_contour, List.mem_map] at hp
  obtain ⟨p0, hp0, rfl⟩ := hp
  have h0 := contourEdgesLoop_chain mag fcos fsin edges 0 _ h p0 hp0
  rw [chain_contig_iff_endPts, List.map_map]
  rw [show (endPts ∘ fun s => { s with
      m_open_contour_length :=
        (contourEdgesLoop mag fcos fsin edges 0
          { m_loc := loc, m_ende := edges.length, m_contour_length := 0,
            m_open_contour_length := 0,
            m_closed_contour_length := 0 }).1.m_open_contour_length
      m_closed_contour_length :=
        (contourEdgesLoop mag fcos fsin edges 0
          { m_loc := loc, m_ende := edges.length, m_contour_length := 0,
            m_open_contour_length := 0,
            m_closed_contour_length := 0 }).1.m_closed_contour_length })
      = endPts from rfl]
  rw [← chain_contig_iff_endPts]
  exact h0

theorem build_path_chain (mag : Vec2 → ℚ) (fcos fsin : ℚ → ℚ)
    (contours : List (List (List Segment))) (loc : ℕ)
    (h : ∀ c ∈ contours, ∀ w ∈ c, List.Chain' Contig w) :
    ∀ cp ∈ build_path mag fcos fsin contours loc, ∀ q ∈ cp,
      List.Chain' Contig q.2 := by
  induction contours generalizing loc with
  | nil => intro cp hcp; simp [build_path] at hcp
  | cons c rest ih =>
    intro cp hcp
    simp only [build_path, List.mem_cons] at hcp
    rcases hcp with hcp | hcp
    · subst hcp
      exact build_contour_chain mag fcos fsin loc c
        (h c (List.mem_cons_self _ _))
    · exact ih _ (fun c' hc' => h c' (List.mem_cons_of_mem _ hc')) cp hcp

/-- Membership-or-default case split for `List.getD`. -/
theorem getD_cases {α : Type} (l : List α) (n : ℕ) (d : α) :
    l.getD n d ∈ l ∨ l.getD n d = d := by
  induction l generalizing n with
  | nil => exact Or.inr rfl
  | cons x xs ih =>
    cases n with
    | zero => exact Or.inl (List.mem_cons_self _ _)
    | succ m =>
      rcases ih m with h | h
      · exact Or.inl (List.mem_cons_of_mem _ h)
      · exact Or.inr h

/-- Slicing a buffer `pre ++ C.flatten ++ post` by the `e`-th range of
the `mkRanges` scan over `C`'s chunk sizes recovers exactly the `e`-th
chunk (and `[]` out of bounds). -/
theorem slice_mkRanges {α : Type} :
    ∀ (C : List (List α)) (e : ℕ) (pre post : List α) (loc : ℕ),
      loc = pre.length →
      (((pre ++ C.flatten ++ post).drop
          ((mkRanges loc (C.map List.length)).getD e (0, 0)).1).take
        (((mkRanges loc (C.map List.length)).getD e (0, 0)).2
          - ((mkRanges loc (C.map List.length)).getD e (0, 0)).1))
        = C.getD e [] := by
  intro C
  induction C with
  | nil =>
    intro e pre post loc _
    simp [mkRanges]
  | cons x rest ih =>
    intro e pre post loc hloc
    cases e with
    | zero =>
      rw [show (mkRanges loc ((x :: rest).map List.length)).getD 0 (0, 0)
          = (loc, loc + x.length) from rfl]
      rw [show (x :: rest).getD 0 [] = x from rfl]
      have hdata : pre ++ (x :: rest).flatten ++ post
          = pre ++ (x ++ (rest.flatten ++ post)) := by
        rw [List.flatten_cons, List.append_assoc, List.append_assoc]
      rw [hdata, hloc]
      rw [List.drop_left pre (x ++ (rest.flatten ++ post))]
      have hsub : pre.length + x.length - pre.length = x.length := by omega
      rw [hsub]
      rw [show x ++ (rest.flatten ++ post) = (x ++ rest.flatten) ++ post from
        (List.append_assoc _ _ _).symm]
      rw [show ((x ++ rest.flatten) ++ post).take x.length
          = ((x ++ (rest.flatten ++ post))).take x.length from by
        rw [List.append_assoc]]
      have : (x ++ (rest.flatten ++ post)).take x.length = x :=
        List.take_left x (rest.flatten ++ post)
      rw [this]
    | succ m =>
      rw [show (mkRanges loc ((x :: rest).map List.length)).getD (m + 1) (0, 0)
          = (mkRanges (loc + x.length) (rest.map List.length)).getD m (0, 0)
        from rfl]
      rw [show (x :: rest).getD (m + 1) [] = rest.getD m [] from rfl]
      have hdata : pre ++ (x :: rest).flatten ++ post
          = (pre ++ x) ++ rest.flatten ++ post := by
        rw [List.flatten_cons, ← List.append_assoc]
      rw [hdata]
      exact ih m (pre ++ x) post (loc + x.length)
        (by rw [List.length_append, hloc])

/-- Slicing the full segment buffer (with an arbitrary already-emitted
prefix `pre`) by the stored range of edge `(o, e)` of `build_path`
recovers exactly that edge's processed segment list. -/
theorem build_path_slice (mag : Vec2 → ℚ) (fcos fsin : ℚ → ℚ) :
    ∀ (contours : List (List (List Segment))) (o e : ℕ)
      (pre : List Segment) (loc : ℕ), loc = pre.length →
      (((pre ++ ((build_path mag fcos fsin contours loc).map
            (fun c => c.map Prod.snd)).flatten.flatten).drop
          ((((build_path mag fcos fsin contours loc).map
              (fun c => c.map Prod.fst)).getD o []).getD e (0, 0)).1).take
        (((((build_path mag fcos fsin contours loc).map
              (fun c => c.map Prod.fst)).getD o []).getD e (0, 0)).2
          - ((((build_path mag fcos fsin contours loc).map
              (fun c => c.map Prod.fst)).getD o []).getD e (0, 0)).1))
        = (((build_path mag fcos fsin contours loc).map
            (fun c => c.map Prod.snd)).getD o []).getD e [] := by
  intro contours
  induction contours with
  | nil =>
    intro o e pre loc _
    simp [build_path]
  | cons c rest ih =>
    intro o e pre loc hloc
    have hbp : build_path mag fcos fsin (c :: rest) loc
        = (build_contour mag fcos fsin loc c).2 ::
          build_path mag fcos fsin rest (build_contour mag fcos fsin loc c).1 :=
      rfl
    have hsizes : ((build_contour mag fcos fsin loc c).2.map Prod.snd).map
        List.length = c.map List.length := by
      rw [List.map_map]
      exact build_contour_sizes mag fcos fsin loc c
    have hflat :
        ((build_path mag fcos fsin (c :: rest) loc).map
            (fun c' => c'.map Prod.snd)).flatten.flatten
          = ((build_contour mag fcos fsin loc c).2.map Prod.snd).flatten ++
            ((build_path mag fcos fsin rest
                (build_contour mag fcos fsin loc c).1).map
              (fun c' => c'.map Prod.snd)).flatten.flatten := by
      rw [hbp, List.map_cons, List.flatten_cons, List.flatten_append]
    cases o with
    | zero =>
      rw [show (((build_path mag fcos fsin (c :: rest) loc).map
            (fun c' => c'.map Prod.fst)).getD 0 [])
          = (build_contour mag fcos fsin loc c).2.map Prod.fst from rfl]
      rw [show (((build_path mag fcos fsin (c :: rest) loc).map
            (fun c' => c'.map Prod.snd)).getD 0 [])
          = (build_contour mag fcos fsin loc c).2.map Prod.snd from rfl]
      rw [(build_contour_ranges mag fcos fsin loc c).1]
      rw [show c.map List.length
          = ((build_contour mag fcos fsin loc c).2.map Prod.snd).map List.length
        from hsizes.symm]
      rw [hflat, ← List.append_assoc]
      exact slice_mkRanges _ e pre _ loc hloc
    | succ m =>
      rw [show (((build_path mag fcos fsin (c :: rest) loc).map
            (fun c' => c'.map Prod.fst)).getD (m + 1) [])
          = ((build_path mag fcos fsin rest
              (build_contour mag fcos fsin loc c).1).map
            (fun c' => c'.map Prod.fst)).getD m [] from rfl]
      rw [show (((build_path mag fcos fsin (c :: rest) loc).map
            (fun c' => c'.map Prod.snd)).getD (m + 1) [])
          = ((build_path mag fcos fsin rest
              (build_contour mag fcos fsin loc c).1).map
            (fun c' => c'.map Prod.snd)).getD m [] from rfl]
      rw [hflat, ← List.append_assoc]
      refine ih m e
        (pre ++ ((build_contour mag fcos fsin loc c).2.map Prod.snd).flatten)
        (build_contour mag fcos fsin loc c).1 ?_
      rw [List.length_append, ← hloc]
      rw [(build_contour_ranges mag fcos fsin loc c).2]
      rw [List.length_flatten, hsizes]

/-- The C++ `TessellatedPath::edge_range(contour, edge)` (out-of-range
indices give the empty range, standing in for the undefined behaviour of
the C++ accessor there). -/
def tp_edge_range (tp : TessPath) (o e : ℕ) : ℕ × ℕ :=
  (tp.m_edges.getD o []).getD e (0, 0)

/-- The C++ `TessellatedPath::edge_segment_data(contour, edge)`:
`make_c_array(m_segment_data).sub_array(edge_range(contour, edge))`. -/
def tp_edge_segment_data (tp : TessPath) (o e : ℕ) : List Segment :=
  (tp.m_segment_data.drop (tp_edge_range tp o e).1).take
    ((tp_edge_range tp o e).2 - (tp_edge_range tp o e).1)

/-- The edge slices of a built path are exactly the processed per-edge
segment lists. -/
theorem buildTP_edge_segment_data (mag : Vec2 → ℚ) (fcos fsin : ℚ → ℚ)
    (contours : List (List (List Segment))) (tmps : List (List ℚ))
    (params : TessellationParams) (maxRec : ℕ) (o e : ℕ) :
    tp_edge_segment_data (buildTP mag fcos fsin contours tmps params maxRec) o e
      = (((build_path mag fcos fsin contours 0).map
          (fun c => c.map Prod.snd)).getD o []).getD e [] := by
  have h := build_path_slice mag fcos fsin contours o e [] 0 rfl
  rw [List.nil_append] at h
  exact h

/-- C1.  For every `TessellatedPath` (built over any interpolators'
storage-call sequences) and every edge of it, consecutive segments
within the edge are positionally contiguous: the slice of the segment
buffer selected by the edge's `edge_range` is `Chain'`-contiguous, i.e.
for every index `i` with `i + 1` inside the edge's segment range,
`segment[i].m_end_pt` equals `segment[i+1].m_start_pt` exactly.  Edges
are produced by arbitrary sequences of `add_line_segment` /
`add_arc_segment` storage calls (`edgeWorkRoom`, modelled from the
spec), and contiguity is preserved through `add_edge`, `end_contour`
and `finalize`. -/
theorem tessellated_path_segment_chain_continuity (mag : Vec2 → ℚ)
    (fcos fsin : ℚ → ℚ)
    (contour_ops : List (List (Vec2 × List StorageOp)))
    (tmps : List (List ℚ)) (params : TessellationParams) (maxRec : ℕ)
    (o e : ℕ) :
    List.Chain' Contig
      (tp_edge_segment_data
        (buildTP mag fcos fsin
          (contour_ops.map (fun c => c.map
            (fun pr => edgeWorkRoom fcos fsin pr.1 pr.2)))
          tmps params maxRec) o e) := by
  rw [buildTP_edge_segment_data]
  have hraw : ∀ c ∈ contour_ops.map (fun c => c.map
        (fun pr => edgeWorkRoom fcos fsin pr.1 pr.2)),
      ∀ w ∈ c, List.Chain' Contig w := by
    intro c hc w hw
    rw [List.mem_map] at hc
    obtain ⟨c0, _, rfl⟩ := hc
    rw [List.mem_map] at hw
    obtain ⟨pr, _, rfl⟩ := hw
    exact (edgeWorkRoom_chain fcos fsin pr.2 pr.1).1
  have hchain := build_path_chain mag fcos fsin
    (contour_ops.map (fun c => c.map (fun pr => edgeWorkRoom fcos fsin pr.1 pr.2)))
    0 hraw
  rcases getD_cases ((build_path mag fcos fsin
      (contour_ops.map (fun c => c.map (fun pr => edgeWorkRoom fcos fsin pr.1 pr.2)))
      0).map (fun c => c.map Prod.snd)) o [] with hmem | hdef
  · rw [List.mem_map] at hmem
    obtain ⟨cp, hcp, hcpeq⟩ := hmem
    rw [← hcpeq]
    rcases getD_cases (cp.map Prod.snd) e [] with hmem2 | hdef2
    · rw [List.mem_map] at hmem2
      obtain ⟨q, hq, hqeq⟩ := hmem2
      rw [← hqeq]
      exact hchain cp hcp q hq
    · rw [hdef2]
      exact List.chain'_nil
  · rw [hdef]
    simp [List.chain'_nil]

/-! Part: Concrete witnesses -/

instance : Inhabited Segment := ⟨{}⟩

/-- A concrete one-unit line segment. -/
def witSeg : Segment := { m_start_pt := (0, 0), m_end_pt := (1, 0) }

/-- A concrete one-contour, one-edge, one-segment input. -/
def witContours : List (List (List Segment)) := [[[witSeg]]]

/-- A concrete interpretation of `magnitude`. -/
def witMag : Vec2 → ℚ := fun _ => 1

/-- A concrete interpretation of `t_cos` / `t_sin`. -/
def witZero : ℚ → ℚ := fun _ => 0

/-- Witness for C3: on the concrete input, the first (only) segment of
the first contour carries `m_closed_contour_length` equal to the
contour's total segment length. -/
theorem cumulative_distance_fields_witness :
    ((build_path witMag witZero witZero witContours 0).head!.head!.2.head!).m_closed_contour_length
      = (((build_path witMag witZero witZero witContours 0).head!).map
          (fun q => (q.2.map Segment.m_length).sum)).sum :=
  (cumulative_distance_fields witMag witZero witZero witContours 0
      (build_path witMag witZero witZero witContours 0).head!
      (List.head!_mem_self (by
        simp [build_path, witContours]))).2
    (build_path witMag witZero witZero witContours 0).head!.head!
    (List.head!_mem_self (by
      simp [build_path, build_contour, contourEdgesLoop, witContours]))
    ((build_path witMag witZero witZero witContours 0).head!.head!.2.head!)
    (List.head!_mem_self (by
      simp [build_path, build_contour, contourEdgesLoop, add_edge, edgeSegLoop,
        witContours]))

/-- Witness for C4: with three queued vertices, two of them coincident at
the origin, the queue recorded at the first `SweepEvent` call contains
only the vertex at `(1, 0)`, which is not `VertEq` to the event. -/
theorem no_duplicate_at_sweep_event_witness :
    ¬ VertEq (((2 : ℕ), ((1 : ℚ), (0 : ℚ))) : GVertex).2
        ((((0 : ℕ), ((0 : ℚ), (0 : ℚ)))) : GVertex).2 :=
  no_duplicate_at_sweep_event (fun _ q => q) 1
    [(0, (0, 0)), (1, (0, 0)), (2, (1, 0))]
    ((0, (0, 0)), [(2, (1, 0))]) (by decide)
    (2, (1, 0)) (by decide)

/-- Witness for C6 at a concrete configuration. -/
theorem intersection_blend_and_clamp_witness :
    (VertexWeights ((0 : ℚ), (0 : ℚ)) (0, 0) (1, 0)).1
        + (VertexWeights ((0 : ℚ), (0 : ℚ)) (0, 0) (1, 0)).2 = 1 / 2 :=
  (intersection_blend_and_clamp (0, 0) (1, 0) (2, 0) ((0 : ℚ), (0 : ℚ))
      (0, 0) (1, 0) (by simp [VertL1dist]) (by decide)).1

/-- A concrete refiner holding a path with `max_distance() = 1` and one
saved contour of one edge with a saved tessellation state. -/
def witRefiner : RefinerPrivate :=
  { m_path :=
      { m_edges := []
        m_segment_data := []
        m_max_distance := 1
        m_max_recursion := 0
        m_has_arcs := false
        m_params := { m_max_distance := 1, m_max_recursion := 0, m_allow_arcs := false } }
    m_contours :=
      [{ m_edges :=
          [{ m_tess_state := some { resume_tessellation := fun _ => ([witSeg], 0, 0) }
             m_interpolator := { produce_tessellation := fun _ => ([witSeg], 0) } }] }] }

/-- Witness for C7: requesting `max_distance = 5` (not below the held
`1`) leaves the refiner's path untouched, while requesting `0` rebuilds
it with the same one contour. -/
theorem refiner_refine_only_when_needed_witness :
    refine_tessellation witMag witZero witZero witRefiner 5 0 = witRefiner
      ∧ number_contours ((refine_tessellation witMag witZero witZero witRefiner 0 0).m_path)
          = witRefiner.m_contours.length :=
  ⟨(refiner_refine_only_when_needed witMag witZero witZero witRefiner 5 0).1 (by decide),
   ((refiner_refine_only_when_needed witMag witZero witZero witRefiner 0 0).2 (by decide)).1⟩

/-- A concrete arc-free `TessellatedPath` object with empty caches. -/
def witTPO : TessPathObject :=
  { m_data :=
      { m_edges := []
        m_segment_data := []
        m_max_distance := 0
        m_max_recursion := 0
        m_has_arcs := false
        m_params := { m_max_distance := 0, m_max_recursion := 0, m_allow_arcs := false } }
    m_stroked := none
    m_filled := none }

/-- Witness for C9 (amended): on an arc-free path with empty caches, the
first calls to `stroked()` and `filled()` both construct. -/
theorem lazy_accessors_cached_witness :
    (stroked witTPO).2 = some { m_source := witTPO.m_data }
      ∧ (filled witTPO).2 = some { m_source := witTPO.m_data } :=
  ⟨(lazy_accessors_cached witTPO).1 rfl,
   (lazy_accessors_cached witTPO).2.2.2.2.1 rfl rfl⟩

/-- Witness for C10: on the concrete one-segment input, the single edge
range is `(0, 1)` and its end equals the segment buffer's size. -/
theorem edge_ranges_partition_witness :
    (((0 : ℕ), (1 : ℕ))).2
      = (buildTP witMag witZero witZero witContours [[0]]
          { m_max_distance := 0, m_max_recursion := 0, m_allow_arcs := false }
          0).m_segment_data.length :=
  (edge_ranges_partition witMag witZero witZero witContours [[0]]
      { m_max_distance := 0, m_max_recursion := 0, m_allow_arcs := false } 0).2.2
    (0, 1) (by decide)

end FUID
